import Mathlib

/-!
Verification of the multi-unit Highest-Priority-Object Top Trading Cycles
implementation (ttc.py, heap_set.py) against its specification.

The embedding below mirrors the Python source function by function.  Agents
and objects are both modelled as natural numbers (the repository's own tests
use integer agents and integer objects).  Python dicts are modelled as
insertion-ordered association lists, Python sets as duplicate-free lists in
insertion order, and Python exceptions (KeyError, IndexError, ValueError,
heap-empty) as an error monad.  Loops whose termination the source does not
guarantee are given explicit fuel; running out of fuel is a distinguished
error, so a fuel-independent fuel error is a proof of divergence.
-/

namespace TTCModel

/-- Errors corresponding to the Python exceptions the source can raise:
KeyError, IndexError, ValueError (from min of an empty sequence), the
empty-heap error of the fibonacci heap, and fuel exhaustion of the
shallow embedding's loops. -/
inductive Err where
  | keyErr : Err
  | idxErr : Err
  | valErr : Err
  | emptyErr : Err
  | fuelErr : Err
deriving DecidableEq, Repr

/-- Computation monad of the embedding: a result or a raised error. -/
abbrev M (β : Type) := Except Err β

/-- A Python dict with Nat keys, modelled as an insertion-ordered
association list. -/
abbrev Dict (β : Type) := List (Nat × β)

/-- Lookup of a key (None when absent). -/
def dLookup {β : Type} : Dict β → Nat → Option β
  | [], _ => none
  | (k', v) :: rest, k => if k' = k then some v else dLookup rest k

/-- Subscript read `d[k]`: raises KeyError when the key is absent. -/
def dGet {β : Type} (d : Dict β) (k : Nat) : M β :=
  match dLookup d k with
  | some v => .ok v
  | none => .error .keyErr

/-- Subscript write `d[k] = v`: updates in place when the key is present,
appends a new entry otherwise (Python dicts keep insertion order). -/
def dSet {β : Type} : Dict β → Nat → β → Dict β
  | [], k, v => [(k, v)]
  | (k', v') :: rest, k, v =>
    if k' = k then (k', v) :: rest else (k', v') :: dSet rest k v

/-- Python `del d[k]`: raises KeyError when the key is absent. -/
def dDel {β : Type} : Dict β → Nat → M (Dict β)
  | [], _ => .error .keyErr
  | (k', v') :: rest, k =>
    if k' = k then .ok rest
    else do
      let r ← dDel rest k
      .ok ((k', v') :: r)

/-- Membership test `k in d`. -/
def dMem {β : Type} (d : Dict β) (k : Nat) : Bool :=
  (dLookup d k).isSome

/-- Key list, in insertion order. -/
def dKeys {β : Type} (d : Dict β) : List Nat := d.map (·.1)

/-- Value list, in insertion order. -/
def dVals {β : Type} (d : Dict β) : List β := d.map (·.2)

/-- A Python set of Nats, modelled as a duplicate-free list in insertion
order; `add` is a no-op on present elements. -/
def sAdd (s : List Nat) (x : Nat) : List Nat :=
  if x ∈ s then s else s ++ [x]

/-- Python `set.remove`: raises KeyError when the element is absent. -/
def setRemove (s : List Nat) (x : Nat) : M (List Nat) :=
  if x ∈ s then .ok (s.erase x) else .error .keyErr

/-- Python `min(l, key=f)` with a possibly raising key function: raises
ValueError on an empty sequence, computes the key of each element in
order, and returns the first element of minimal key. -/
def pyMinGo (f : Nat → M Int) : List Nat → Nat → Int → M Nat
  | [], best, _ => .ok best
  | y :: rest, best, pb => do
    let py ← f y
    if py < pb then pyMinGo f rest y py else pyMinGo f rest best pb

/-- Python `min(l, key=f)`, entry point. -/
def pyMin (f : Nat → M Int) : List Nat → M Nat
  | [] => .error .valErr
  | x :: rest => do
    let px ← f x
    pyMinGo f rest x px

/-- HeapSet (heap_set.py): a fibonacci heap of (element, priority) entries
together with a set of the elements present.  The heap is modelled as the
list of its entries in insertion order; `dequeue_min` returns the first
entry of minimal priority (the spec allows any deterministic tie-break). -/
structure HeapSet where
  heap : List (Nat × Int)
  set : List Nat
deriving DecidableEq, Repr

/-- Empty HeapSet. -/
def HeapSet.empty : HeapSet := ⟨[], []⟩

/-- HeapSet.add: `if element not in self.set: self.set.add(element);
self.heap.enqueue(element, self.priority(element))`.  The priority function
is called only for elements not already present, and may raise. -/
def HeapSet.add (hs : HeapSet) (prio : Nat → M Int) (x : Nat) : M HeapSet :=
  if x ∈ hs.set then .ok hs
  else do
    let p ← prio x
    .ok ⟨hs.heap ++ [(x, p)], hs.set ++ [x]⟩

/-- Minimal entry of a heap: the first entry whose priority is minimal. -/
def minEntry : List (Nat × Int) → Option (Nat × Int)
  | [] => none
  | e :: rest =>
    match minEntry rest with
    | none => some e
    | some m => if e.2 ≤ m.2 then some e else some m

/-- Removal of the first occurrence of an entry from a heap. -/
def eraseEntry : List (Nat × Int) → Nat × Int → List (Nat × Int)
  | [], _ => []
  | e :: rest, x => if e = x then rest else e :: eraseEntry rest x

/-- HeapSet.pop: `dequeue_min` then remove the element from the set;
raises the heap's empty error on an empty heap. -/
def HeapSet.pop (hs : HeapSet) : M (Nat × HeapSet) :=
  match minEntry hs.heap with
  | none => .error .emptyErr
  | some e => .ok (e.1, ⟨eraseEntry hs.heap e, hs.set.erase e.1⟩)

/-- Persistence record: the data captured by the closure built in
`_persistence` (ttc.py line 393).  Following the spec's design note, the
closure is represented as a record of the values it captures: the selected
edge `graph_selection[vertex]`, the first reachable unsatisfied agent
`target = reachable_unsat[vertex]`, and the object `obj` that the target
held when the record was made.  Both captured dict cells are immutable
between recording time and evaluation time in the source, so capturing
their values is faithful. -/
structure PersistRec where
  edge : Nat
  target : Nat
  obj : Nat
deriving DecidableEq, Repr

/-- TTCContext (ttc.py line 28): the mutable round state.  The caller's
priority dict is carried in the state as well so that the embedding can
express that the algorithm never writes it. -/
structure Ctx where
  prefs : Dict (List (List Nat))
  ends : Dict (List Nat)
  curr_ends : Dict Nat
  curr_prefs : Dict (List (List Nat))
  graph : Dict (List Nat)
  persistence_test : Dict PersistRec
  unsat : List Nat
  alloc : Dict (List Nat)
  reachable_unsat : Dict Nat
  priority : Dict Int
deriving DecidableEq, Repr

/-- First phase of `_update_ends`: iterate over the keys of `ctx.ends`; for
each agent not in `curr_ends`, pop the head of his pending list into
`curr_ends`, or add him to `to_delete` when the list is empty. -/
def updateEndsPass : Ctx → List Nat → M (Ctx × List Nat)
  | ctx, [] => .ok (ctx, [])
  | ctx, agent :: rest =>
    if dMem ctx.curr_ends agent then updateEndsPass ctx rest
    else do
      let l ← dGet ctx.ends agent
      match l with
      | [] => do
        let (ctx', td) ← updateEndsPass ctx rest
        .ok (ctx', agent :: td)
      | e :: tl =>
        updateEndsPass
          { ctx with ends := dSet ctx.ends agent tl,
                     curr_ends := dSet ctx.curr_ends agent e } rest

/-- Second phase of `_update_ends`: for each agent collected in
`to_delete`, delete him from `ends` and `prefs`, and — whenever the
`persistence_test` dict is non-empty — from `persistence_test` as well.
This mirrors the source's `if ctx.persistence_test:` test, which checks
non-emptiness of the dict rather than membership of the agent. -/
def updateEndsDelete : Ctx → List Nat → M Ctx
  | ctx, [] => .ok ctx
  | ctx, agent :: rest => do
    let ends' ← dDel ctx.ends agent
    let prefs' ← dDel ctx.prefs agent
    let pt' ←
      if ctx.persistence_test.isEmpty then .ok ctx.persistence_test
      else dDel ctx.persistence_test agent
    updateEndsDelete
      { ctx with ends := ends', prefs := prefs', persistence_test := pt' } rest

/-- `_update_ends` (ttc.py line 117). -/
def updateEnds (ctx : Ctx) : M Ctx := do
  let (ctx', td) ← updateEndsPass ctx (dKeys ctx.ends)
  updateEndsDelete ctx' td

/-- `_get_curr_agent_prefs` (ttc.py line 139): filter each indifference
class down to the available objects, dropping classes that become empty. -/
def getCurrAgentPrefs : List (List Nat) → List Nat → List (List Nat)
  | [], _ => []
  | ic :: rest, endSet =>
    let clean := ic.filter (fun e => e ∈ endSet)
    if clean.isEmpty then getCurrAgentPrefs rest endSet
    else clean :: getCurrAgentPrefs rest endSet

/-- `_get_curr_prefs` (ttc.py line 156): for each agent in `prefs`, write
the restriction of his preference to the objects currently held by some
agent into `curr_prefs`. -/
def getCurrPrefs (ctx : Ctx) : Ctx :=
  let endSet := dVals ctx.curr_ends
  { ctx with
    curr_prefs :=
      ctx.prefs.foldl
        (fun cp av => dSet cp av.1 (getCurrAgentPrefs av.2 endSet))
        ctx.curr_prefs }

/-- Edge construction of `_build_ttc_graph`: for each agent of
`curr_prefs`, an edge to the owner of every object of his first
indifference class; `pref[0]` raises IndexError on an empty preference,
and the owner lookup raises KeyError for an unowned object. -/
def buildEdges : List (Nat × List (List Nat)) → Dict Nat → M (Dict (List Nat))
  | [], _ => .ok []
  | (agent, pref) :: rest, rev =>
    match pref with
    | [] => .error .idxErr
    | top :: _ => do
      let nbrs ← top.mapM (fun e => dGet rev e)
      let g ← buildEdges rest rev
      .ok ((agent, nbrs) :: g)

/-- `_build_ttc_graph` (ttc.py line 166): clear the graph, build the
reverse endowment map (later entries win), then add the edges. -/
def buildTtcGraph (ctx : Ctx) : M Ctx := do
  let reverseEnds : Dict Nat :=
    ctx.curr_ends.foldl (fun r ae => dSet r ae.2 ae.1) []
  let g ← buildEdges ctx.curr_prefs reverseEnds
  .ok { ctx with graph := g }

/-- Body of `_collect_unsatisfied` / `_add_to_unsat`: walk the agents of
`curr_ends` and collect those whose current endowment is not in the first
class of their current preference.  `curr_prefs[agent]` raises KeyError
when absent and `[0]` raises IndexError on an empty preference. -/
def collectUnsatGo (ctx : Ctx) : List Nat → List Nat → M (List Nat)
  | [], acc => .ok acc
  | a :: rest, acc => do
    let ce ← dGet ctx.curr_ends a
    let cp ← dGet ctx.curr_prefs a
    match cp with
    | [] => .error .idxErr
    | top :: _ =>
      collectUnsatGo ctx rest (if ce ∈ top then acc else sAdd acc a)

/-- `_collect_unsatisfied` (ttc.py line 187): clear and repopulate the
unsatisfied set. -/
def collectUnsatisfied (ctx : Ctx) : M Ctx := do
  let u ← collectUnsatGo ctx (dKeys ctx.curr_ends) []
  .ok { ctx with unsat := u }

/-- One expansion step of a reachability set: add every successor of every
vertex of the set (vertices without a graph entry contribute nothing). -/
def reachStep (g : Dict (List Nat)) (r : List Nat) : List Nat :=
  r.foldl
    (fun acc v =>
      match dLookup g v with
      | some nbrs => nbrs.foldl sAdd acc
      | none => acc)
    r

/-- Iterated expansion. -/
def reachIter (g : Dict (List Nat)) : Nat → List Nat → List Nat
  | 0, r => r
  | n + 1, r => reachIter g n (reachStep g r)

/-- Vertices reachable from `v` (closure reached after `|g|` steps). -/
def reachable (g : Dict (List Nat)) (v : Nat) : List Nat :=
  reachIter g g.length [v]

/-- Strongly connected component of `v`: the graph keys mutually reachable
with `v`. -/
def sccOf (g : Dict (List Nat)) (v : Nat) : List Nat :=
  (dKeys g).filter (fun u => decide (u ∈ reachable g v) && decide (v ∈ reachable g u))

/-- Component list construction: scan the keys, emitting each vertex's
component the first time one of its members is seen. -/
def sccList (g : Dict (List Nat)) : List Nat → List Nat → List (List Nat)
  | [], _ => []
  | v :: rest, seen =>
    if v ∈ seen then sccList g rest seen
    else
      let c := sccOf g v
      c :: sccList g rest (seen ++ c)

/-- Modelled from the spec: the strongly-connected-component decomposition
supplied by the external `tarjan` library is not part of this repository;
the spec states that any SCC algorithm with correct decomposition is
acceptable, and no use site depends on the order of the components (sink
removal and cycle rotation act on disjoint components independently).
This implementation decides mutual reachability directly. -/
def tarjan (g : Dict (List Nat)) : List (List Nat) :=
  sccList g (dKeys g) []

/-- `_is_sink` (ttc.py line 194): no edge leaves the component; the scan
stops at the first outgoing edge found. -/
def isSink : List Nat → List Nat → Dict (List Nat) → M Bool
  | [], _, _ => .ok true
  | v :: rest, scc, g => do
    let nbrs ← dGet g v
    if nbrs.all (fun n => n ∈ scc) then isSink rest scc g else .ok false

/-- Filtering pass of `_get_sinks`. -/
def getSinksGo (g : Dict (List Nat)) : List (List Nat) → M (List (List Nat))
  | [] => .ok []
  | scc :: rest => do
    let b ← isSink scc scc g
    let r ← getSinksGo g rest
    if b then .ok (scc :: r) else .ok r

/-- `_get_sinks` (ttc.py line 202). -/
def getSinks (g : Dict (List Nat)) : M (List (List Nat)) :=
  getSinksGo g (tarjan g)

/-- `_is_terminal` (ttc.py line 211): no member is unsatisfied. -/
def isTerminal (sink : List Nat) (unsat : List Nat) : Bool :=
  sink.all (fun a => a ∉ unsat)

/-- Inner scan of `_scrub_from_curr_prefs`: remove the first occurrence of
the object from the first indifference class containing it, reporting
whether that class became empty. -/
def removeFromFirstClass : List (List Nat) → Nat → (List (List Nat) × Bool)
  | [], _ => ([], false)
  | ic :: rest, e =>
    if e ∈ ic then
      let ic' := ic.erase e
      (ic' :: rest, ic'.isEmpty)
    else
      let (rest', b) := removeFromFirstClass rest e
      (ic :: rest', b)

/-- `_scrub_from_curr_prefs` (ttc.py line 216): scrub the object from every
remaining preference; when a class was emptied, drop the first empty class
of that preference (Python's `pref.remove([])`). -/
def scrubFromCurrPrefs (ctx : Ctx) (endw : Nat) : Ctx :=
  { ctx with
    curr_prefs :=
      ctx.curr_prefs.map (fun ap =>
        let pb := removeFromFirstClass ap.2 endw
        (ap.1, if pb.2 then pb.1.erase [] else pb.1)) }

/-- Removal of one agent of a terminal sink (`_remove_terminal_sinks` loop
body, ttc.py line 244): append his current endowment to his allocation,
delete him from `curr_ends`, `graph` and `curr_prefs`, and scrub the
allocated object from the remaining current preferences. -/
def removeAgent (ctx : Ctx) (agent : Nat) : M Ctx := do
  let a ← dGet ctx.curr_ends agent
  let alloc' :=
    match dLookup ctx.alloc agent with
    | some l => dSet ctx.alloc agent (l ++ [a])
    | none => dSet ctx.alloc agent [a]
  let ce' ← dDel ctx.curr_ends agent
  let g' ← dDel ctx.graph agent
  let cp' ← dDel ctx.curr_prefs agent
  .ok (scrubFromCurrPrefs
    { ctx with alloc := alloc', curr_ends := ce', graph := g', curr_prefs := cp' } a)

/-- Removal of every agent of one sink, in order. -/
def removeSinkAgents : Ctx → List Nat → M Ctx
  | ctx, [] => .ok ctx
  | ctx, agent :: rest => do
    let ctx' ← removeAgent ctx agent
    removeSinkAgents ctx' rest

/-- Scan of the sink list in `_remove_terminal_sinks`, tracking whether a
terminal sink was found. -/
def removeSinksGo : Ctx → List (List Nat) → Bool → M (Bool × Ctx)
  | ctx, [], found => .ok (found, ctx)
  | ctx, sink :: rest, found =>
    if isTerminal sink ctx.unsat then do
      let ctx' ← removeSinkAgents ctx sink
      removeSinksGo ctx' rest true
    else removeSinksGo ctx rest found

/-- `_remove_terminal_sinks` (ttc.py line 230). -/
def removeTerminalSinks (ctx : Ctx) : M (Bool × Ctx) := do
  let sinks ← getSinks ctx.graph
  removeSinksGo ctx sinks false

/-- `_update_ctx_and_build_graph` (ttc.py line 264). -/
def updateCtxAndBuildGraph (ctx : Ctx) : M Ctx := do
  let ctx ← updateEnds ctx
  let ctx := getCurrPrefs ctx
  let ctx ← buildTtcGraph ctx
  collectUnsatisfied ctx

/-- Fueled loop of `_iteratively_remove_sinks`.  Each iteration that finds
a terminal sink strictly decreases the number of unallocated objects, so
the fuel passed by `iterativelyRemoveSinks` never runs out on the runs the
theorems below evaluate. -/
def sinkLoop : Nat → Ctx → M Ctx
  | 0, _ => .error .fuelErr
  | fuel + 1, ctx => do
    let r ← removeTerminalSinks ctx
    if r.1 then do
      let ctx' ← updateCtxAndBuildGraph r.2
      sinkLoop fuel ctx'
    else .ok r.2

/-- Number of objects not yet allocated: pending ones plus current ones. -/
def totalObjects (ctx : Ctx) : Nat :=
  (dVals ctx.ends).foldl (fun n l => n + l.length) ctx.curr_ends.length

/-- `_iteratively_remove_sinks` (ttc.py line 273). -/
def iterativelyRemoveSinks (ctx : Ctx) : M Ctx := do
  let ctx ← updateCtxAndBuildGraph ctx
  sinkLoop (totalObjects ctx + 1) ctx

/-- `_agent_priority` (ttc.py line 293): the priority of an agent's current
endowment; raises KeyError when the agent has no current endowment or his
object has no priority key. -/
def agentPriority (ctx : Ctx) (a : Nat) : M Int := do
  let e ← dGet ctx.curr_ends a
  dGet ctx.priority e

/-- Edge insertion pass of `_reverse_graph`: add `v` to the reverse
adjacency set of each of its successors; a successor that is not a key of
the reverse graph raises KeyError. -/
def revAdd (v : Nat) : List Nat → Dict (List Nat) → M (Dict (List Nat))
  | [], r => .ok r
  | n :: rest, r => do
    let s ← dGet r n
    revAdd v rest (dSet r n (sAdd s v))

/-- Outer pass of `_reverse_graph`. -/
def revGo : List (Nat × List Nat) → Dict (List Nat) → M (Dict (List Nat))
  | [], r => .ok r
  | (v, nbrs) :: rest, r => do
    let r' ← revAdd v nbrs r
    revGo rest r'

/-- `_reverse_graph` (ttc.py line 299). -/
def reverseGraph (g : Dict (List Nat)) : M (Dict (List Nat)) :=
  revGo g (g.map (fun vn => (vn.1, [])))

/-- `_unsat_select` (ttc.py line 308): give each unsatisfied agent the edge
to his minimal-priority neighbor and mark him labeled. -/
def unsatSelect (g : Dict (List Nat)) (prio : Nat → M Int) :
    List Nat → Dict Nat → List Nat → M (Dict Nat × List Nat)
  | [], sel, labeled => .ok (sel, labeled)
  | u :: rest, sel, labeled => do
    let nbrs ← dGet g u
    let m ← pyMin prio nbrs
    unsatSelect g prio rest (dSet sel u m) (sAdd labeled u)

/-- Python truthiness of an integer-valued agent identifier: `if persist:`
is false for the agent 0 just as it is for None. -/
def pyTruthy (a : Nat) : Bool := a ≠ 0

/-- Evaluation of a persistence closure (`_persistence`, ttc.py line 393):
return the captured edge when the captured target still currently holds
the captured object, and None otherwise. -/
def persistEval (ctx : Ctx) (r : PersistRec) : Option Nat :=
  if dLookup ctx.curr_ends r.target = some r.obj then some r.edge else none

/-- `_persistence_select` (ttc.py line 319): for each recorded vertex whose
predicate evaluates to a truthy value, fix the returned edge and mark the
vertex labeled. -/
def persistenceSelect (ctx : Ctx) :
    List (Nat × PersistRec) → Dict Nat → List Nat → Dict Nat × List Nat
  | [], sel, labeled => (sel, labeled)
  | (v, r) :: rest, sel, labeled =>
    match persistEval ctx r with
    | some t =>
      if pyTruthy t then persistenceSelect ctx rest (dSet sel v t) (sAdd labeled v)
      else persistenceSelect ctx rest sel labeled
    | none => persistenceSelect ctx rest sel labeled

/-- Inner pass of `_collect_adjacent_to_labeled`: add the unlabeled reverse
neighbors of one labeled vertex. -/
def collectFrom (heap : HeapSet) (prio : Nat → M Int) (labeled : List Nat) :
    List Nat → M HeapSet
  | [] => .ok heap
  | rn :: rest => do
    let heap' ← if rn ∈ labeled then .ok heap else heap.add prio rn
    collectFrom heap' prio labeled rest

/-- `_collect_adjacent_to_labeled` (ttc.py line 349). -/
def collectAdjacentToLabeled (heap : HeapSet) (rev : Dict (List Nat))
    (prio : Nat → M Int) (labeled : List Nat) : M HeapSet :=
  go heap labeled
where
  /-- Iteration over the labeled vertices. -/
  go : HeapSet → List Nat → M HeapSet
    | heap, [] => .ok heap
    | heap, v :: rest => do
      let rns ← dGet rev v
      let heap' ← collectFrom heap prio labeled rns
      go heap' rest

/-- One iteration of `_sat_select`'s while loop: collect the candidates
adjacent to the labeled set, pop the minimal one, and fix its edge to its
minimal-priority labeled out-neighbor.  Returns the resolved vertex, its
selected target, and the updated selection, labeled set and heap. -/
def satStep (g rev : Dict (List Nat)) (prio : Nat → M Int) (sel : Dict Nat)
    (labeled : List Nat) (heap : HeapSet) :
    M (Nat × Nat × Dict Nat × List Nat × HeapSet) := do
  let heap ← collectAdjacentToLabeled heap rev prio labeled
  let vh ← heap.pop
  let nbrs ← dGet g vh.1
  let ladj := nbrs.filter (fun n => n ∈ labeled)
  let m ← pyMin prio ladj
  .ok (vh.1, m, dSet sel vh.1 m, sAdd labeled vh.1, vh.2)

/-- Fueled while loop of `_sat_select`; each successful iteration removes
the popped vertex from the unlabeled set. -/
def satSelectLoop (g rev : Dict (List Nat)) (prio : Nat → M Int) :
    Nat → Dict Nat → List Nat → HeapSet → List Nat → M (Dict Nat × List Nat)
  | 0, sel, labeled, _, unlabeled =>
    if unlabeled.isEmpty then .ok (sel, labeled) else .error .fuelErr
  | fuel + 1, sel, labeled, heap, unlabeled =>
    if unlabeled.isEmpty then .ok (sel, labeled)
    else do
      let st ← satStep g rev prio sel labeled heap
      let unlabeled' ← setRemove unlabeled st.1
      satSelectLoop g rev prio fuel st.2.2.1 st.2.2.2.1 st.2.2.2.2 unlabeled'

/-- `_sat_select` (ttc.py line 332). -/
def satSelect (g : Dict (List Nat)) (prio : Nat → M Int) (sel : Dict Nat)
    (labeled : List Nat) : M (Dict Nat × List Nat) := do
  let unlabeled := (dKeys g).filter (fun v => v ∉ labeled)
  let rev ← reverseGraph g
  satSelectLoop g rev prio unlabeled.length sel labeled HeapSet.empty unlabeled

/-- `_subgraph` (ttc.py line 280): persistence pass (only when the
persistence dict is non-empty), unsatisfied pass, then satisfied pass. -/
def subgraph (ctx : Ctx) : M (Dict Nat) := do
  let prio := agentPriority ctx
  let sl :=
    if ctx.persistence_test.isEmpty then (([] : Dict Nat), ([] : List Nat))
    else persistenceSelect ctx ctx.persistence_test [] []
  let sl ← unsatSelect ctx.graph prio ctx.unsat sl.1 sl.2
  let sl ← satSelect ctx.graph prio sl.1 sl.2
  .ok sl.1

/-- Inner while loop of `_first_reachable_unsat` (ttc.py line 369): follow
selection edges until an unsatisfied or memoized vertex is found.  The
source has no guard against revisiting a vertex of the current path, so on
a cycle with no unsatisfied and no memoized member it never exits; the
fuel error reports exactly that. -/
def frInner (sel : Dict Nat) (unsat : List Nat) (ru : Dict Nat) :
    Nat → List Nat → Nat → M (List Nat × Nat)
  | 0, _, _ => .error .fuelErr
  | fuel + 1, path, curr =>
    if curr ∈ unsat ∨ dMem ru curr then .ok (path, curr)
    else do
      let next ← dGet sel curr
      frInner sel unsat ru fuel (path ++ [curr]) next

/-- Assignment loop of `_first_reachable_unsat`: give every path vertex its
resolved target and drop it from the pending vertex set. -/
def frAssign (unsat : List Nat) :
    List Nat → Nat → Dict Nat → List Nat → M (Dict Nat × List Nat)
  | [], _, ru, verts => .ok (ru, verts)
  | vert :: rest, curr, ru, verts => do
    let tgt ← if curr ∈ unsat then .ok curr else dGet ru curr
    let verts' := if vert ∈ verts then verts.erase vert else verts
    frAssign unsat rest curr (dSet ru vert tgt) verts'

/-- Outer loop of `_first_reachable_unsat`: process pending vertices until
none remain (the set's pop is modelled as taking the head). -/
def frOuter (sel : Dict Nat) : Nat → Ctx → List Nat → M Ctx
  | 0, _, _ => .error .fuelErr
  | fuel + 1, ctx, verts =>
    match verts with
    | [] => .ok ctx
    | v :: vrest => do
      let start ← dGet sel v
      let pc ← frInner sel ctx.unsat ctx.reachable_unsat (sel.length + 2) [v] start
      let rv ← frAssign ctx.unsat pc.1 pc.2 ctx.reachable_unsat vrest
      frOuter sel fuel { ctx with reachable_unsat := rv.1 } rv.2

/-- `_first_reachable_unsat` (ttc.py line 360). -/
def firstReachableUnsat (sel : Dict Nat) (ctx : Ctx) : M Ctx :=
  frOuter sel (sel.length + 1) { ctx with reachable_unsat := [] } (dKeys sel)

/-- Recording pass of `_record_persistences` (ttc.py line 382): one record
per vertex of `reachable_unsat`, capturing the selected edge, the target,
and the object the target currently holds. -/
def recPersistGo (ctx : Ctx) (sel : Dict Nat) :
    List Nat → Dict PersistRec → M (Dict PersistRec)
  | [], pt => .ok pt
  | v :: rest, pt => do
    let tgt ← dGet ctx.reachable_unsat v
    let obj ← dGet ctx.curr_ends tgt
    let edge ← dGet sel v
    recPersistGo ctx sel rest (dSet pt v ⟨edge, tgt, obj⟩)

/-- `_record_persistences` (ttc.py line 382): clear and rebuild. -/
def recordPersistences (ctx : Ctx) (sel : Dict Nat) : M Ctx := do
  let pt ← recPersistGo ctx sel (dKeys ctx.reachable_unsat) []
  .ok { ctx with persistence_test := pt }

/-- Sequential assignments `ctx.curr_ends[vert] = ctx.curr_ends[pred]` of
`_trade`'s rotation, in the source's reversed order. -/
def tradeAssign : Dict Nat → List (Nat × Nat) → M (Dict Nat)
  | ce, [] => .ok ce
  | ce, (vert, pred) :: rest => do
    let pv ← dGet ce pred
    tradeAssign (dSet ce vert pv) rest

/-- Rotation of one cycle (`_trade` loop body, ttc.py line 411): read the
last member's endowment, and when the cycle has length greater than one,
shift every member's endowment to his successor and give the first member
the saved one. -/
def tradeCycle (ce : Dict Nat) (cycle : List Nat) : M (Dict Nat) :=
  match cycle with
  | [] => .error .idxErr
  | c0 :: crest => do
    let lastEnd ← dGet ce ((c0 :: crest).getLast (by simp))
    if crest.length + 1 > 1 then do
      let pairs := (crest.zip ((c0 :: crest).dropLast)).reverse
      let ce' ← tradeAssign ce pairs
      .ok (dSet ce' c0 lastEnd)
    else .ok ce

/-- Iteration over the cycles found by the SCC decomposition. -/
def tradeCycles : Dict Nat → List (List Nat) → M (Dict Nat)
  | ce, [] => .ok ce
  | ce, cycle :: rest => do
    let ce' ← tradeCycle ce cycle
    tradeCycles ce' rest

/-- `_trade` (ttc.py line 403). -/
def trade (ctx : Ctx) (sel : Dict Nat) : M Ctx := do
  let tg : Dict (List Nat) := sel.map (fun vn => (vn.1, [vn.2]))
  let ce ← tradeCycles ctx.curr_ends (tarjan tg)
  .ok { ctx with curr_ends := ce }

/-- One iteration of the top-level round loop of `ttc` (ttc.py lines
99-112). -/
def roundBody (ctx : Ctx) : M Ctx := do
  let ctx ← updateEnds ctx
  let ctx := getCurrPrefs ctx
  let ctx ← buildTtcGraph ctx
  let ctx ← iterativelyRemoveSinks ctx
  let sel ← subgraph ctx
  let ctx ← firstReachableUnsat sel ctx
  let ctx ← recordPersistences ctx sel
  trade ctx sel

/-- Fueled `while ctx.prefs:` loop of `ttc`. -/
def ttcLoop : Nat → Ctx → M Ctx
  | 0, ctx => if ctx.prefs.isEmpty then .ok ctx else .error .fuelErr
  | fuel + 1, ctx =>
    if ctx.prefs.isEmpty then .ok ctx
    else do
      let ctx' ← roundBody ctx
      ttcLoop fuel ctx'

/-- Initial context built by `ttc` (ttc.py line 87). -/
def initCtx (prefs : Dict (List (List Nat))) (ends : Dict (List Nat))
    (priority : Dict Int) : Ctx :=
  ⟨prefs, ends, [], [], [], [], [], [], [], priority⟩

/-- `ttc` (ttc.py line 45), returning the whole final context so that
frame conditions on the state can be expressed. -/
def ttcRun (fuel : Nat) (prefs : Dict (List (List Nat)))
    (ends : Dict (List Nat)) (priority : Dict Int) : M Ctx :=
  ttcLoop fuel (initCtx prefs ends priority)

/-- `ttc`'s return value: the final allocation. -/
def ttc (fuel : Nat) (prefs : Dict (List (List Nat)))
    (ends : Dict (List Nat)) (priority : Dict Int) : M (Dict (List Nat)) :=
  (ttcRun fuel prefs ends priority).map Ctx.alloc

/-- Two consecutive round bodies (stopping if the first empties the
preference map): a probe whose fuel-independent failure exhibits a
divergence of the round loop. -/
def probe (c : Ctx) : M Ctx := do
  let c1 ← roundBody c
  if c1.prefs.isEmpty then pure c1 else roundBody c1

/-- Adjacency lookup defaulting to no neighbors. -/
def lookupD (d : Dict (List Nat)) (k : Nat) : List Nat :=
  (dLookup d k).getD []

/-- Eligibility as the source implements it: an unlabeled graph vertex
with at least one labeled out-neighbor (an edge from the vertex to a
labeled agent). -/
def outEligible (g : Dict (List Nat)) (labeled : List Nat) (u : Nat) : Bool :=
  dMem g u && decide (u ∉ labeled) && (lookupD g u).any (fun v => decide (v ∈ labeled))

/-- Eligibility as the claim words it: an unlabeled agent with at least
one labeled in-neighbor, i.e. some labeled agent has an edge to him. -/
def inNbrEligible (g : Dict (List Nat)) (labeled : List Nat) (u : Nat) : Bool :=
  decide (u ∉ labeled) && g.any (fun vn => decide (vn.1 ∈ labeled) && decide (u ∈ vn.2))

/-- Specification of the reverse graph: same vertex set, and an entry
`u ∈ rev[v]` exactly for the graph vertices `u` with an edge to `v`. -/
def revSpec (g rev : Dict (List Nat)) : Prop :=
  dKeys rev = dKeys g ∧
  (∀ v ∈ dKeys rev, ∀ u ∈ lookupD rev v, u ∈ dKeys g ∧ v ∈ lookupD g u) ∧
  (∀ u ∈ dKeys g, ∀ v ∈ lookupD g u, u ∈ lookupD rev v)

/-- Well-formedness of a HeapSet with respect to a priority function: the
set mirrors the heap's elements, elements are unique, and every stored
priority is the one the function computes. -/
def HeapSet.wfBy (hs : HeapSet) (prio : Nat → M Int) : Prop :=
  hs.heap.map Prod.fst = hs.set ∧ hs.set.Nodup ∧ ∀ e ∈ hs.heap, prio e.1 = .ok e.2

/-- Length of an optional list, zero when absent. -/
def lenO (o : Option (List Nat)) : Nat := (o.getD []).length

/-- Objects of one agent that the state still accounts for: allocated
ones, pending ones, and the current one. -/
def cnt (ctx : Ctx) (a : Nat) : Nat :=
  lenO (dLookup ctx.alloc a) + lenO (dLookup ctx.ends a) +
    (if dMem ctx.curr_ends a then 1 else 0)

/-- Every object the state accounts for: pending, current, allocated. -/
def objsOf (ctx : Ctx) : List Nat :=
  (dVals ctx.ends).flatten ++ dVals ctx.curr_ends ++ (dVals ctx.alloc).flatten

/-- Invariant of the round loop relative to the per-agent endowment
counts `T`, the initial agent list `agents0`, the initial object list
`objs0` and the caller's priority dict `pr0`: preference and endowment
keys coincide, current endowments belong to live agents, key lists stay
duplicate-free, every agent still accounts for exactly his initial number
of objects, the accounted object list is a permutation of the initial
one, allocation entries are non-empty, live and allocated agents come
from the initial agent list, and the priority dict is never written. -/
def Inv (T : Nat → Nat) (agents0 objs0 : List Nat) (pr0 : Dict Int) (ctx : Ctx) : Prop :=
  (∀ a, dMem ctx.prefs a = dMem ctx.ends a) ∧
  (∀ a, dMem ctx.curr_ends a = true → dMem ctx.ends a = true) ∧
  (dKeys ctx.prefs).Nodup ∧ (dKeys ctx.ends).Nodup ∧
  (dKeys ctx.curr_ends).Nodup ∧ (dKeys ctx.alloc).Nodup ∧
  (∀ a, cnt ctx a = T a) ∧
  (objsOf ctx).Perm objs0 ∧
  (∀ a l, dLookup ctx.alloc a = some l → l ≠ []) ∧
  (∀ a, dMem ctx.ends a = true → a ∈ agents0) ∧
  (∀ a, dMem ctx.alloc a = true → a ∈ agents0) ∧
  ctx.priority = pr0

/-- Input of the divergence run: preferences of the six agents. -/
def prefs6 : Dict (List (List Nat)) :=
  [(1, [[1, 2, 3]]), (2, [[5], [2, 1]]), (3, [[5], [4]]), (4, [[3]]),
   (5, [[6]]), (6, [[5]])]

/-- Input of the divergence run: agent `i` is endowed with object `i`. -/
def ends6 : Dict (List Nat) :=
  [(1, [1]), (2, [2]), (3, [3]), (4, [4]), (5, [5]), (6, [6])]

/-- Input of the divergence run: priority of object `i` is `i`. -/
def prio6 : Dict Int :=
  [(1, 1), (2, 2), (3, 3), (4, 4), (5, 5), (6, 6)]

/-- Preferences of the idempotence counterexample: two agents with strict
preferences over the four objects. -/
def prefs7 : Dict (List (List Nat)) :=
  [(1, [[1], [4], [3], [2]]), (2, [[2], [1], [3], [4]])]

/-- Endowments of the idempotence counterexample. -/
def ends7 : Dict (List Nat) := [(1, [1, 2]), (2, [3, 4])]

/-- Priorities of the idempotence counterexample. -/
def prio7 : Dict Int := [(1, 1), (2, 2), (3, 3), (4, 4)]

/-- Selection graph with a two-cycle and no unsatisfied member. -/
def selC8 : Dict Nat := [(1, 2), (2, 1)]

/-- Round state in which `_update_ends` must delete agent 1 while the
persistence dict is non-empty but has no entry for him. -/
def ctxC9 : Ctx :=
  ⟨[(1, [])], [(1, [])], [], [], [], [(2, ⟨3, 4, 5⟩)], [], [], [], []⟩

/-- Round state for the persistence pass examples: agent 2 currently
holds object 5, nothing else is populated. -/
def ctxC6 : Ctx := ⟨[], [], [(2, 5)], [], [], [], [], [], [], []⟩

/-- Empty round state. -/
def ctxEmpty : Ctx := ⟨[], [], [], [], [], [], [], [], [], []⟩

/-- Consecutive pairs of a list: the assignment order of `_trade`'s
rotation, seen along the reversed cycle. -/
def consecPairs : List Nat → List (Nat × Nat)
  | [] => []
  | [_] => []
  | a :: b :: rest => (a, b) :: consecPairs (b :: rest)

/-- Last element of a non-empty list given as head and tail. -/
def lastOf : Nat → List Nat → Nat
  | y, [] => y
  | _, z :: rest => lastOf z rest

/-- Equality of the fields of the round state that the loop invariant
tracks (the remaining fields are scratch data recomputed each round). -/
def coreEq (c c' : Ctx) : Prop :=
  c'.prefs = c.prefs ∧ c'.ends = c.ends ∧ c'.curr_ends = c.curr_ends ∧
  c'.alloc = c.alloc ∧ c'.priority = c.priority

/-! ## Association-list lemmas -/

theorem dLookup_dSet_self {β : Type} (d : Dict β) (k : Nat) (v : β) :
    dLookup (dSet d k v) k = some v := by
  induction d with
  | nil => simp [dSet, dLookup]
  | cons e rest ih =>
    by_cases h : e.1 = k
    · simp [dSet, h, dLookup]
    · simp [dSet, h, dLookup, ih]

theorem dLookup_dSet_ne {β : Type} (d : Dict β) (k k' : Nat) (v : β)
    (h : k ≠ k') : dLookup (dSet d k v) k' = dLookup d k' := by
  induction d with
  | nil => simp [dSet, dLookup, h]
  | cons e rest ih =>
    obtain ⟨a, b⟩ := e
    simp only [dSet, dLookup]
    split_ifs with h1 h2 h2 <;> simp_all [dLookup]

theorem mem_sAdd (s : List Nat) (x y : Nat) :
    y ∈ sAdd s x ↔ y ∈ s ∨ y = x := by
  by_cases h : x ∈ s
  · simp [sAdd, h]
    intro hy; subst hy; exact h
  · simp [sAdd, h]

theorem sAdd_subset (s : List Nat) (x : Nat) : s ⊆ sAdd s x := by
  intro y hy; rw [mem_sAdd]; exact Or.inl hy

theorem self_mem_sAdd (s : List Nat) (x : Nat) : x ∈ sAdd s x := by
  rw [mem_sAdd]; exact Or.inr rfl

/-! ## Claim C9: deletion with a non-empty persistence dict -/

/-- Claim C9 (code_bug evidence): on a round state where agent 1 must be
removed, the persistence dict is non-empty, and it has no entry for agent
1, `_update_ends` raises KeyError instead of succeeding; the guard
`if ctx.persistence_test:` tests dict non-emptiness, not membership of
the agent. -/
theorem update_ends_keyerror :
    updateEnds ctxC9 = .error .keyErr ∧
    ctxC9.persistence_test.isEmpty = false ∧
    dMem ctxC9.persistence_test 1 = false :=
  ⟨rfl, rfl, rfl⟩

/-! ## Claim C2: absence of input validation -/

/-- Claim C2 counterexample: on an input in which object 10 appears in the
endowment sequences of both agents, `ttc` does not fail with any error:
it runs to completion and returns an allocation. -/
theorem ttc_no_validation_counterexample :
    ttc 10 [(1, [[10]]), (2, [[10]])] [(1, [10]), (2, [10])] [(10, 0)] =
      .ok [(2, [10]), (1, [10])] := rfl

/-- Claim C2 amended: `ttc` performs no validation of its preconditions.
With a duplicated endowment it silently returns an allocation that gives
the duplicated object to both agents, and with an object referenced in
preferences but missing a priority key it can also return normally. -/
theorem ttc_silent_on_invalid_inputs :
    (ttc 10 [(1, [[10]]), (2, [[10]])] [(1, [10]), (2, [10])] [(10, 0)] =
        .ok [(2, [10]), (1, [10])] ∧
      dLookup [(2, [10]), (1, [10])] 1 = some [10] ∧
      dLookup [(2, [10]), (1, [10])] 2 = some [10]) ∧
    (ttc 10 [(1, [[10, 11]])] [(1, [10])] [(10, 0)] = .ok [(1, [10])] ∧
      dMem [(10, (0 : Int))] 11 = false) :=
  ⟨⟨rfl, rfl, rfl⟩, rfl, rfl⟩

/-! ## Claim C7: idempotence -/

/-- Claim C7 counterexample: a well-formed two-agent input (strict
preferences over four objects, two endowments each, all priorities
present, no duplicates) on which the first run returns an allocation,
and feeding that allocation back as the endowments with the same
preferences and priority returns a different allocation. -/
theorem ttc_idem_counterexample :
    ttc 30 prefs7 ends7 prio7 = .ok [(1, [1, 3]), (2, [2, 4])] ∧
    ttc 30 prefs7 [(1, [1, 3]), (2, [2, 4])] prio7 =
      .ok [(1, [1, 4]), (2, [2, 3])] ∧
    ([(1, [1, 4]), (2, [2, 3])] : Dict (List Nat)) ≠
      [(1, [1, 3]), (2, [2, 4])] :=
  ⟨rfl, rfl, by decide⟩

/-- Claim C7 amended: re-running `allocate` on a prior run's allocation
need not reproduce it (the multi-unit rounds re-pair the objects and can
trade again); it does reproduce it whenever the first run allocates every
agent exactly his endowment sequence, since the second run's input then
equals the first run's and the algorithm is deterministic. -/
theorem ttc_idem_on_fixed_points (fuel : Nat)
    (prefs : Dict (List (List Nat))) (ends : Dict (List Nat))
    (priority : Dict Int) (alloc : Dict (List Nat))
    (h1 : ttc fuel prefs ends priority = .ok alloc) (h2 : alloc = ends) :
    ttc fuel prefs alloc priority = .ok alloc := by
  subst h2; exact h1

/-- Witness for the amended idempotence theorem at a concrete fixed
point: one agent who keeps his own endowment. -/
theorem ttc_idem_on_fixed_points_witness :
    ttc 5 [(1, [[1]])] [(1, [1])] [(1, 1)] = .ok [(1, [1])] :=
  ttc_idem_on_fixed_points 5 [(1, [[1]])] [(1, [1])] [(1, 1)] [(1, [1])] rfl rfl

/-! ## Claim C8: divergence of the reachability traversal -/

/-- Helper: on the selection graph 1 ↦ 2, 2 ↦ 1 with no unsatisfied agent
and no memoized entry, the inner traversal of `_first_reachable_unsat`
runs out of any amount of fuel: the source has no guard against
revisiting a vertex and follows the cycle forever. -/
theorem frInner_cycle_diverges :
    ∀ fuel path, frInner selC8 [] [] fuel path 1 = .error .fuelErr ∧
      frInner selC8 [] [] fuel path 2 = .error .fuelErr := by
  intro fuel
  induction fuel with
  | zero => intro path; exact ⟨rfl, rfl⟩
  | succ n ih =>
    intro path
    exact ⟨(ih (path ++ [1])).2, (ih (path ++ [2])).1⟩

/-- Claim C8 (code_bug evidence): `_first_reachable_unsat` is not total on
out-degree-1 selection graphs: on the two-cycle 1 ↦ 2, 2 ↦ 1 whose
members are neither unsatisfied nor memoized, the inner traversal
diverges (it errors for every fuel), and the full function fails on that
selection graph; the defensive revisit check the claim describes does not
exist in the source. -/
theorem first_reachable_unsat_diverges :
    (∀ fuel path, frInner selC8 [] [] fuel path 1 = .error .fuelErr ∧
      frInner selC8 [] [] fuel path 2 = .error .fuelErr) ∧
    firstReachableUnsat selC8 ctxEmpty = .error .fuelErr :=
  ⟨frInner_cycle_diverges, rfl⟩

theorem dLookup_eq_none_iff {β : Type} (d : Dict β) (k : Nat) :
    dLookup d k = none ↔ k ∉ dKeys d := by
  induction d with
  | nil => simp [dLookup, dKeys]
  | cons e rest ih =>
    obtain ⟨a, b⟩ := e
    have hk : dKeys ((a, b) :: rest) = a :: dKeys rest := rfl
    by_cases h : a = k
    · subst h
      simp [dLookup, hk, List.mem_cons]
    · rw [dLookup, if_neg h, ih, hk]
      simp only [List.mem_cons, not_or]
      constructor
      · intro h2; exact ⟨fun hh => h hh.symm, h2⟩
      · intro h2; exact h2.2

theorem dMem_true_iff {β : Type} (d : Dict β) (k : Nat) :
    dMem d k = true ↔ k ∈ dKeys d := by
  rw [dMem, Option.isSome_iff_ne_none, Ne, dLookup_eq_none_iff]
  exact not_not

theorem dLookup_some_of_mem_keys {β : Type} (d : Dict β) (k : Nat)
    (h : k ∈ dKeys d) : ∃ v, dLookup d k = some v := by
  cases hl : dLookup d k with
  | none => exact absurd ((dLookup_eq_none_iff d k).mp hl) (not_not.mpr h)
  | some v => exact ⟨v, rfl⟩

theorem dGet_eq_ok {β : Type} (d : Dict β) (k : Nat) (v : β) :
    dGet d k = .ok v ↔ dLookup d k = some v := by
  rw [dGet]
  cases hl : dLookup d k with
  | none => simp
  | some w => simp

theorem dSet_decomp {β : Type} (d : Dict β) (k : Nat) (v w : β)
    (h : dLookup d k = some v) :
    ∃ pre post, d = pre ++ (k, v) :: post ∧ k ∉ dKeys pre ∧
      dSet d k w = pre ++ (k, w) :: post := by
  induction d with
  | nil => cases h
  | cons e rest ih =>
    obtain ⟨a, b⟩ := e
    by_cases ha : a = k
    · subst ha
      rw [dLookup, if_pos rfl] at h
      cases h
      exact ⟨[], rest, rfl, by simp [dKeys], by rw [dSet, if_pos rfl]; rfl⟩
    · rw [dLookup, if_neg ha] at h
      obtain ⟨pre, post, hd, hk, hset⟩ := ih h
      refine ⟨(a, b) :: pre, post, ?_, ?_, ?_⟩
      · rw [List.cons_append, ← hd]
      · intro hm
        have hkeq : dKeys ((a, b) :: pre) = a :: dKeys pre := rfl
        rw [hkeq] at hm
        rcases List.mem_cons.mp hm with hm2 | hm2
        · exact ha hm2.symm
        · exact hk hm2
      · rw [dSet, if_neg ha, hset]
        rfl

theorem dDel_decomp {β : Type} :
    ∀ (d : Dict β) (k : Nat) (d' : Dict β), dDel d k = .ok d' →
    ∃ pre v post, d = pre ++ (k, v) :: post ∧ k ∉ dKeys pre ∧ d' = pre ++ post := by
  intro d
  induction d with
  | nil => intro k d' h; cases h
  | cons e rest ih =>
    intro k d' h
    obtain ⟨a, b⟩ := e
    by_cases ha : a = k
    · subst ha
      rw [dDel, if_pos rfl] at h
      cases h
      exact ⟨[], b, rest, rfl, by simp [dKeys], rfl⟩
    · rw [dDel, if_neg ha] at h
      cases hr : dDel rest k with
      | error e2 =>
        rw [hr] at h
        have h2 : (Except.error e2 : M (Dict β)) = .ok d' := h
        cases h2
      | ok r =>
        rw [hr] at h
        have h2 : (Except.ok ((a, b) :: r) : M (Dict β)) = .ok d' := h
        cases h2
        obtain ⟨pre, v, post, hd, hk, hdel⟩ := ih k r hr
        refine ⟨(a, b) :: pre, v, post, ?_, ?_, ?_⟩
        · rw [List.cons_append, ← hd]
        · intro hm
          have hkeq : dKeys ((a, b) :: pre) = a :: dKeys pre := rfl
          rw [hkeq] at hm
          rcases List.mem_cons.mp hm with hm2 | hm2
          · exact ha hm2.symm
          · exact hk hm2
        · rw [hdel]
          rfl

theorem dDel_error_of_not_mem {β : Type} :
    ∀ (d : Dict β) (k : Nat), dMem d k = false → dDel d k = .error .keyErr := by
  intro d
  induction d with
  | nil => intro k _; rfl
  | cons e rest ih =>
    intro k h
    obtain ⟨a, b⟩ := e
    have h2 : ¬a = k ∧ dMem rest k = false := by
      by_cases ha : a = k
      · rw [dMem, dLookup, if_pos ha] at h
        simp at h
      · rw [dMem, dLookup, if_neg ha] at h
        exact ⟨ha, h⟩
    rw [dDel, if_neg h2.1, ih k h2.2]
    rfl

theorem dSet_absent {β : Type} (d : Dict β) (k : Nat) (w : β)
    (h : dMem d k = false) : dSet d k w = d ++ [(k, w)] := by
  induction d with
  | nil => rfl
  | cons e rest ih =>
    obtain ⟨a, b⟩ := e
    have h2 : ¬a = k ∧ dMem rest k = false := by
      by_cases ha : a = k
      · rw [dMem, dLookup, if_pos ha] at h
        simp at h
      · rw [dMem, dLookup, if_neg ha] at h
        exact ⟨ha, h⟩
    rw [dSet, if_neg h2.1, ih h2.2]
    rfl

theorem dLookup_append {β : Type} :
    ∀ (l1 l2 : Dict β) (k : Nat), dLookup (l1 ++ l2) k =
      match dLookup l1 k with
      | some v => some v
      | none => dLookup l2 k := by
  intro l1
  induction l1 with
  | nil => intro l2 k; rfl
  | cons e rest ih =>
    intro l2 k
    obtain ⟨a, b⟩ := e
    by_cases ha : a = k
    · rw [List.cons_append, dLookup, if_pos ha, dLookup, if_pos ha]
    · rw [List.cons_append, dLookup, if_neg ha, dLookup, if_neg ha, ih]

theorem dLookup_mem_vals {β : Type} :
    ∀ (d : Dict β) (k : Nat) (v : β), dLookup d k = some v → v ∈ dVals d := by
  intro d
  induction d with
  | nil => intro k v h; cases h
  | cons e rest ih =>
    intro k v h
    obtain ⟨a, b⟩ := e
    by_cases ha : a = k
    · rw [dLookup, if_pos ha] at h
      cases h
      exact List.mem_cons_self _ _
    · rw [dLookup, if_neg ha] at h
      exact List.mem_cons_of_mem _ (ih k v h)

theorem dKeys_append {β : Type} (l1 l2 : Dict β) :
    dKeys (l1 ++ l2) = dKeys l1 ++ dKeys l2 := by
  simp [dKeys]

theorem dVals_append {β : Type} (l1 l2 : Dict β) :
    dVals (l1 ++ l2) = dVals l1 ++ dVals l2 := by
  simp [dVals]

theorem dKeys_dSet_present {β : Type} (d : Dict β) (k : Nat) (v w : β)
    (h : dLookup d k = some v) : dKeys (dSet d k w) = dKeys d := by
  obtain ⟨pre, post, hd, _, hset⟩ := dSet_decomp d k v w h
  rw [hset, hd, dKeys_append, dKeys_append]
  rfl

theorem dVals_dSet_perm {β : Type} (d : Dict β) (k : Nat) (v w : β)
    (h : dLookup d k = some v) :
    (dVals (dSet d k w) ++ [v]).Perm (dVals d ++ [w]) := by
  obtain ⟨pre, post, hd, _, hset⟩ := dSet_decomp d k v w h
  rw [hset, hd, dVals_append, dVals_append]
  have h1 : dVals ((k, w) :: post) = w :: dVals post := rfl
  have h2 : dVals ((k, v) :: post) = v :: dVals post := rfl
  rw [h1, h2, List.append_assoc, List.append_assoc]
  refine List.Perm.append_left (dVals pre) ?_
  show (w :: (dVals post ++ [v])).Perm (v :: (dVals post ++ [w]))
  refine List.Perm.trans (List.Perm.cons w (List.perm_append_singleton v _)) ?_
  refine List.Perm.trans (List.Perm.swap v w (dVals post)) ?_
  exact List.Perm.cons v (List.perm_append_singleton w _).symm

theorem dMem_dSet_ne {β : Type} (d : Dict β) (k k' : Nat) (v : β)
    (h : k ≠ k') : dMem (dSet d k v) k' = dMem d k' := by
  rw [dMem, dMem, dLookup_dSet_ne d k k' v h]

theorem dMem_dSet_self {β : Type} (d : Dict β) (k : Nat) (v : β) :
    dMem (dSet d k v) k = true := by
  rw [dMem, dLookup_dSet_self]
  rfl

theorem dLookup_dDel_ne {β : Type} (d : Dict β) (k : Nat) (d' : Dict β)
    (h : dDel d k = .ok d') (b : Nat) (hb : b ≠ k) :
    dLookup d' b = dLookup d b := by
  obtain ⟨pre, v, post, hd, _, hdel⟩ := dDel_decomp d k d' h
  subst hd
  subst hdel
  rw [dLookup_append, dLookup_append]
  cases dLookup pre b with
  | some w => rfl
  | none =>
    show dLookup post b = dLookup ((k, v) :: post) b
    rw [dLookup, if_neg (fun hh => hb hh.symm)]

theorem dLookup_dDel_self {β : Type} (d : Dict β) (k : Nat) (d' : Dict β)
    (h : dDel d k = .ok d') (hnd : (dKeys d).Nodup) :
    dLookup d' k = none := by
  obtain ⟨pre, v, post, hd, hkpre, hdel⟩ := dDel_decomp d k d' h
  subst hd
  subst hdel
  have hkpost : k ∉ dKeys post := by
    rw [dKeys_append] at hnd
    have h2 := (List.nodup_append.mp hnd).2.1
    have hkeq : dKeys ((k, v) :: post) = k :: dKeys post := rfl
    rw [hkeq] at h2
    exact (List.nodup_cons.mp h2).1
  rw [dLookup_append]
  rw [(dLookup_eq_none_iff pre k).mpr hkpre]
  exact (dLookup_eq_none_iff post k).mpr hkpost

theorem dKeys_dDel_nodup {β : Type} (d : Dict β) (k : Nat) (d' : Dict β)
    (h : dDel d k = .ok d') (hnd : (dKeys d).Nodup) :
    (dKeys d').Nodup := by
  obtain ⟨pre, v, post, hd, _, hdel⟩ := dDel_decomp d k d' h
  subst hd
  subst hdel
  rw [dKeys_append] at hnd ⊢
  have hkeq : dKeys ((k, v) :: post) = k :: dKeys post := rfl
  rw [hkeq] at hnd
  rw [List.nodup_append] at hnd ⊢
  exact ⟨hnd.1, (List.nodup_cons.mp hnd.2.1).2,
    fun a ha hb => hnd.2.2 ha (List.mem_cons_of_mem k hb)⟩

theorem dKeys_dSet_nodup {β : Type} (d : Dict β) (k : Nat) (v : β)
    (hnd : (dKeys d).Nodup) : (dKeys (dSet d k v)).Nodup := by
  cases hm : dMem d k with
  | true =>
    obtain ⟨w, hw⟩ := dLookup_some_of_mem_keys d k ((dMem_true_iff d k).mp hm)
    rw [dKeys_dSet_present d k w v hw]
    exact hnd
  | false =>
    rw [dSet_absent d k v hm, dKeys_append]
    have hkeq : dKeys [(k, v)] = [k] := rfl
    rw [hkeq]
    refine List.Nodup.append hnd (List.nodup_singleton k) ?_
    intro a ha hb
    rw [List.mem_singleton] at hb
    subst hb
    rw [← dMem_true_iff] at ha
    rw [hm] at ha
    cases ha

/-! ## HeapSet lemmas and claim C5 -/

theorem minEntry_eq_none : ∀ (l : List (Nat × Int)), minEntry l = none ↔ l = [] := by
  intro l
  cases l with
  | nil => simp [minEntry]
  | cons a rest =>
    simp only [minEntry]
    cases minEntry rest with
    | none => simp
    | some m => by_cases h : a.2 ≤ m.2 <;> simp [h]

theorem minEntry_mem : ∀ (l : List (Nat × Int)) e, minEntry l = some e → e ∈ l := by
  intro l
  induction l with
  | nil => intro e h; cases h
  | cons a rest ih =>
    intro e h
    rw [minEntry] at h
    cases hm : minEntry rest with
    | none => rw [hm] at h; cases h; exact List.mem_cons_self a rest
    | some m =>
      rw [hm] at h
      have h2 : (if a.2 ≤ m.2 then some a else some m) = some e := h
      by_cases hle : a.2 ≤ m.2
      · rw [if_pos hle] at h2; cases h2; exact List.mem_cons_self a rest
      · rw [if_neg hle] at h2; cases h2; exact List.mem_cons_of_mem a (ih e hm)

theorem minEntry_le : ∀ (l : List (Nat × Int)) e, minEntry l = some e →
    ∀ e' ∈ l, e.2 ≤ e'.2 := by
  intro l
  induction l with
  | nil => intro e h; cases h
  | cons a rest ih =>
    intro e h e' he'
    rw [minEntry] at h
    cases hm : minEntry rest with
    | none =>
      rw [hm] at h; cases h
      have : rest = [] := (minEntry_eq_none rest).mp hm
      subst this
      rcases List.mem_cons.mp he' with rfl | hr
      · exact le_refl _
      · cases hr
    | some m =>
      rw [hm] at h
      have h2 : (if a.2 ≤ m.2 then some a else some m) = some e := h
      by_cases hle : a.2 ≤ m.2
      · rw [if_pos hle] at h2; cases h2
        rcases List.mem_cons.mp he' with rfl | hr
        · exact le_refl _
        · exact le_trans hle (ih m hm e' hr)
      · rw [if_neg hle] at h2; cases h2
        rcases List.mem_cons.mp he' with rfl | hr
        · exact le_of_lt (lt_of_not_le hle)
        · exact ih e hm e' hr

theorem eraseEntry_subset : ∀ (l : List (Nat × Int)) e, eraseEntry l e ⊆ l := by
  intro l
  induction l with
  | nil => intro e x hx; cases hx
  | cons a rest ih =>
    intro e x hx
    rw [eraseEntry] at hx
    by_cases ha : a = e
    · rw [if_pos ha] at hx; exact List.mem_cons_of_mem a hx
    · rw [if_neg ha] at hx
      rcases List.mem_cons.mp hx with rfl | hr
      · exact List.mem_cons_self _ _
      · exact List.mem_cons_of_mem a (ih e hr)

theorem eraseEntry_map_fst : ∀ (l : List (Nat × Int)) e,
    (l.map Prod.fst).Nodup → e ∈ l →
    (eraseEntry l e).map Prod.fst = (l.map Prod.fst).erase e.1 := by
  intro l
  induction l with
  | nil => intro e _ he; cases he
  | cons a rest ih =>
    intro e hnd he
    have hnd2 : a.1 ∉ rest.map Prod.fst ∧ (rest.map Prod.fst).Nodup := by
      simpa using hnd
    rw [eraseEntry]
    by_cases ha : a = e
    · subst ha
      simp [List.erase_cons_head]
    · have her : e ∈ rest := by
        rcases List.mem_cons.mp he with rfl | hr
        · exact absurd rfl ha
        · exact hr
      have hne1 : a.1 ≠ e.1 := by
        intro hh
        exact hnd2.1 (hh ▸ List.mem_map_of_mem Prod.fst her)
      rw [if_neg ha]
      simp only [List.map_cons]
      rw [List.erase_cons_tail (by simpa using hne1)]
      rw [ih e hnd2.2 her]

/-- Helper: specification of `HeapSet.pop` on a well-formed non-empty
heap: it removes and returns an element of minimal priority. -/
theorem heapPop_spec (prio : Nat → M Int) (hs : HeapSet)
    (hwf : hs.wfBy prio) (hne : hs.heap ≠ []) :
    ∃ m pm hs', hs.pop = .ok (m, hs') ∧ m ∈ hs.set ∧ prio m = .ok pm ∧
      (∀ y py, y ∈ hs.set → prio y = .ok py → pm ≤ py) ∧
      hs'.set = hs.set.erase m ∧ hs'.wfBy prio := by
  obtain ⟨hsync, hnd, hstored⟩ := hwf
  cases hm : minEntry hs.heap with
  | none => exact absurd ((minEntry_eq_none hs.heap).mp hm) hne
  | some e =>
    have hmem := minEntry_mem _ e hm
    have hms : e.1 ∈ hs.set := hsync ▸ List.mem_map_of_mem Prod.fst hmem
    refine ⟨e.1, e.2, ⟨eraseEntry hs.heap e, hs.set.erase e.1⟩, ?_, hms,
      hstored e hmem, ?_, rfl, ?_, ?_, ?_⟩
    · rw [HeapSet.pop, hm]
    · intro y py hy hpy
      rw [← hsync] at hy
      obtain ⟨ey, hey, heyfst⟩ := List.mem_map.mp hy
      have := hstored ey hey
      rw [heyfst, hpy] at this
      cases this
      exact minEntry_le _ e hm ey hey
    · show (eraseEntry hs.heap e).map Prod.fst = hs.set.erase e.1
      rw [eraseEntry_map_fst hs.heap e (hsync ▸ hnd) hmem, hsync]
    · exact hnd.erase e.1
    · intro ey hey
      exact hstored ey (eraseEntry_subset hs.heap e hey)

/-- Claim C5: contract of the PrioritySet (HeapSet): add of a present
element is a no-op; add of a new element stores it with the priority the
caller's function computes; pop on an empty structure fails with the
empty error; and pop on a well-formed non-empty structure removes and
returns an element of lowest priority among those present. -/
theorem heapset_contract (f : Nat → Int) (hs : HeapSet) (x : Nat) :
    (x ∈ hs.set → hs.add (fun y => .ok (f y)) x = .ok hs) ∧
    (x ∉ hs.set → hs.add (fun y => .ok (f y)) x =
      .ok ⟨hs.heap ++ [(x, f x)], hs.set ++ [x]⟩) ∧
    (hs.heap = [] → hs.pop = .error .emptyErr) ∧
    (hs.wfBy (fun y => .ok (f y)) → hs.heap ≠ [] →
      ∃ m hs', hs.pop = .ok (m, hs') ∧ m ∈ hs.set ∧
        (∀ y ∈ hs.set, f m ≤ f y) ∧
        hs'.set = hs.set.erase m ∧ hs'.wfBy (fun y => .ok (f y))) := by
  refine ⟨fun h => ?_, fun h => ?_, fun h => ?_, fun hwf hne => ?_⟩
  · rw [HeapSet.add, if_pos h]
  · rw [HeapSet.add, if_neg h]; rfl
  · rw [HeapSet.pop, h]; rfl
  · obtain ⟨m, pm, hs', hpop, hms, hpm, hmin, hset, hwf'⟩ :=
      heapPop_spec (fun y => .ok (f y)) hs hwf hne
    have hfm : f m = pm := by cases hpm; rfl
    refine ⟨m, hs', hpop, hms, ?_, hset, hwf'⟩
    intro y hy
    rw [hfm]
    exact hmin y (f y) hy rfl

/-- Witness for the HeapSet contract: a concrete two-element heap in
which every hypothesis of the contract is discharged. -/
theorem heapset_contract_witness :
    HeapSet.add ⟨[(4, 9), (6, 2)], [4, 6]⟩ (fun y => .ok ((y : Int) + 5)) 4 =
      .ok ⟨[(4, 9), (6, 2)], [4, 6]⟩ ∧
    HeapSet.add ⟨[(4, 9), (6, 2)], [4, 6]⟩ (fun y => .ok ((y : Int) + 5)) 3 =
      .ok ⟨[(4, 9), (6, 2), (3, 8)], [4, 6, 3]⟩ ∧
    HeapSet.pop ⟨[], []⟩ = .error .emptyErr ∧
    HeapSet.pop ⟨[(4, 9), (6, 11)], [4, 6]⟩ = .ok (4, ⟨[(6, 11)], [6]⟩) := by
  have h1 := (heapset_contract (fun y => (y : Int) + 5) ⟨[(4, 9), (6, 2)], [4, 6]⟩ 4).1
    (by decide)
  have h2 := (heapset_contract (fun y => (y : Int) + 5) ⟨[(4, 9), (6, 2)], [4, 6]⟩ 3).2.1
    (by decide)
  have h3 := (heapset_contract (fun y => (y : Int) + 5) ⟨[], []⟩ 0).2.2.1 rfl
  have h4 := (heapset_contract (fun y => (y : Int) + 5) ⟨[(4, 9), (6, 11)], [4, 6]⟩ 0).2.2.2
    (by refine ⟨rfl, by decide, ?_⟩
        intro e he
        rcases List.mem_cons.mp he with rfl | he2
        · rfl
        · rcases List.mem_cons.mp he2 with rfl | he3
          · rfl
          · cases he3)
    (by decide)
  refine ⟨h1, by simpa using h2, h3, ?_⟩
  obtain ⟨m, hs', hpop, _, _, _, _⟩ := h4
  have : HeapSet.pop ⟨[(4, 9), (6, 11)], [4, 6]⟩ = .ok (4, ⟨[(6, 11)], [6]⟩) := rfl
  exact this

/-! ## Claim C4: the satisfied pass -/

theorem M_bind_ok {α β : Type} (a : α) (f : α → M β) :
    ((Except.ok a : M α) >>= f) = f a := rfl

theorem outEligible_iff (g : Dict (List Nat)) (labeled : List Nat) (u : Nat) :
    outEligible g labeled u = true ↔
      u ∈ dKeys g ∧ u ∉ labeled ∧ ∃ v ∈ lookupD g u, v ∈ labeled := by
  rw [outEligible]
  simp [dMem_true_iff, List.any_eq_true, and_assoc]

/-- Helper: specification of Python's `min` with a key function
(`pyMinGo` part): the running best is threaded through. -/
theorem pyMinGo_spec (f : Nat → M Int) :
    ∀ (l : List Nat) (best : Nat) (pb : Int), f best = .ok pb →
      (∀ y ∈ l, ∃ p, f y = .ok p) →
      ∃ m pm, pyMinGo f l best pb = .ok m ∧ f m = .ok pm ∧ pm ≤ pb ∧
        (m = best ∨ m ∈ l) ∧ ∀ y py, y ∈ l → f y = .ok py → pm ≤ py := by
  intro l
  induction l with
  | nil =>
    intro best pb hb _
    exact ⟨best, pb, rfl, hb, le_refl pb, Or.inl rfl,
      fun y py hy => absurd hy (List.not_mem_nil y)⟩
  | cons y rest ih =>
    intro best pb hb hl
    obtain ⟨py, hpy⟩ := hl y (List.mem_cons_self y rest)
    have hrest : ∀ z ∈ rest, ∃ p, f z = .ok p :=
      fun z hz => hl z (List.mem_cons_of_mem y hz)
    have hred : pyMinGo f (y :: rest) best pb =
        if py < pb then pyMinGo f rest y py else pyMinGo f rest best pb := by
      rw [pyMinGo, hpy]
      rfl
    by_cases hlt : py < pb
    · rw [hred, if_pos hlt]
      obtain ⟨m, pm, hgo, hfm, hle, hmem, hmin⟩ := ih y py hpy hrest
      refine ⟨m, pm, hgo, hfm, le_trans hle (le_of_lt hlt), ?_, ?_⟩
      · rcases hmem with rfl | hm
        · exact Or.inr (List.mem_cons_self _ _)
        · exact Or.inr (List.mem_cons_of_mem y hm)
      · intro z pz hz hpz
        rcases List.mem_cons.mp hz with rfl | hz2
        · rw [hpy] at hpz; cases hpz; exact hle
        · exact hmin z pz hz2 hpz
    · rw [hred, if_neg hlt]
      obtain ⟨m, pm, hgo, hfm, hle, hmem, hmin⟩ := ih best pb hb hrest
      refine ⟨m, pm, hgo, hfm, hle, ?_, ?_⟩
      · rcases hmem with rfl | hm
        · exact Or.inl rfl
        · exact Or.inr (List.mem_cons_of_mem y hm)
      · intro z pz hz hpz
        rcases List.mem_cons.mp hz with rfl | hz2
        · rw [hpy] at hpz; cases hpz
          exact le_trans hle (le_of_not_lt hlt)
        · exact hmin z pz hz2 hpz

/-- Helper: specification of Python's `min` with a key function: it
returns a member whose key is minimal. -/
theorem pyMin_spec (f : Nat → M Int) (l : List Nat) (hne : l ≠ [])
    (hl : ∀ y ∈ l, ∃ p, f y = .ok p) :
    ∃ m pm, pyMin f l = .ok m ∧ m ∈ l ∧ f m = .ok pm ∧
      ∀ y py, y ∈ l → f y = .ok py → pm ≤ py := by
  cases l with
  | nil => exact absurd rfl hne
  | cons x rest =>
    obtain ⟨px, hpx⟩ := hl x (List.mem_cons_self x rest)
    have hrest : ∀ z ∈ rest, ∃ p, f z = .ok p :=
      fun z hz => hl z (List.mem_cons_of_mem x hz)
    obtain ⟨m, pm, hgo, hfm, hle, hmem, hmin⟩ := pyMinGo_spec f rest x px hpx hrest
    have hred : pyMin f (x :: rest) = pyMinGo f rest x px := by
      rw [pyMin, hpx]
      rfl
    refine ⟨m, pm, by rw [hred]; exact hgo, ?_, hfm, ?_⟩
    · rcases hmem with rfl | hm
      · exact List.mem_cons_self _ _
      · exact List.mem_cons_of_mem x hm
    · intro y py hy hpy
      rcases List.mem_cons.mp hy with rfl | hy2
      · rw [hpx] at hpy; cases hpy; exact hle
      · exact hmin y py hy2 hpy

/-- Helper: `HeapSet.add` of a new element with a computable priority
succeeds, appends the element, and preserves well-formedness. -/
theorem heapAdd_new (prio : Nat → M Int) (hs : HeapSet) (x : Nat) (p : Int)
    (hwf : hs.wfBy prio) (h : x ∉ hs.set) (hp : prio x = .ok p) :
    hs.add prio x = .ok ⟨hs.heap ++ [(x, p)], hs.set ++ [x]⟩ ∧
    HeapSet.wfBy ⟨hs.heap ++ [(x, p)], hs.set ++ [x]⟩ prio := by
  obtain ⟨hsync, hnd, hstored⟩ := hwf
  refine ⟨by rw [HeapSet.add, if_neg h, hp]; rfl, ?_, ?_, ?_⟩
  · show (hs.heap ++ [(x, p)]).map Prod.fst = hs.set ++ [x]
    rw [List.map_append, hsync]
    rfl
  · refine List.Nodup.append hnd (List.nodup_singleton x) ?_
    intro a ha hb
    rw [List.mem_singleton] at hb
    subst hb
    exact h ha
  · intro e he
    rcases List.mem_append.mp he with he2 | he2
    · exact hstored e he2
    · rw [List.mem_singleton] at he2
      subst he2
      exact hp

/-- Helper: `_collect_adjacent_to_labeled`'s inner pass adds exactly the
unlabeled members of the given reverse-neighbor list. -/
theorem collectFrom_spec (prio : Nat → M Int) (labeled : List Nat) :
    ∀ (rns : List Nat) (heap : HeapSet), heap.wfBy prio →
      (∀ rn ∈ rns, rn ∉ labeled → ∃ p, prio rn = .ok p) →
      ∃ heap', collectFrom heap prio labeled rns = .ok heap' ∧
        heap'.wfBy prio ∧
        (∀ x, x ∈ heap'.set ↔ x ∈ heap.set ∨ (x ∈ rns ∧ x ∉ labeled)) := by
  intro rns
  induction rns with
  | nil =>
    intro heap hwf _
    exact ⟨heap, rfl, hwf, fun x => by simp⟩
  | cons rn rest ih =>
    intro heap hwf hp
    have hprest : ∀ z ∈ rest, z ∉ labeled → ∃ p, prio z = .ok p :=
      fun z hz => hp z (List.mem_cons_of_mem rn hz)
    by_cases hl : rn ∈ labeled
    · have hred : collectFrom heap prio labeled (rn :: rest) =
          collectFrom heap prio labeled rest := by
        rw [collectFrom, if_pos hl]
        rfl
      obtain ⟨heap', hrun, hwf', hchar⟩ := ih heap hwf hprest
      refine ⟨heap', by rw [hred]; exact hrun, hwf', fun x => ?_⟩
      rw [hchar x]
      constructor
      · rintro (hx | hx)
        · exact Or.inl hx
        · exact Or.inr ⟨List.mem_cons_of_mem rn hx.1, hx.2⟩
      · rintro (hx | ⟨hx1, hx2⟩)
        · exact Or.inl hx
        · rcases List.mem_cons.mp hx1 with rfl | hx3
          · exact absurd hl hx2
          · exact Or.inr ⟨hx3, hx2⟩
    · by_cases hmemset : rn ∈ heap.set
      · have hred : collectFrom heap prio labeled (rn :: rest) =
            collectFrom heap prio labeled rest := by
          rw [collectFrom, if_neg hl, HeapSet.add, if_pos hmemset]
          rfl
        obtain ⟨heap', hrun, hwf', hchar⟩ := ih heap hwf hprest
        refine ⟨heap', by rw [hred]; exact hrun, hwf', fun x => ?_⟩
        rw [hchar x]
        constructor
        · rintro (hx | hx)
          · exact Or.inl hx
          · exact Or.inr ⟨List.mem_cons_of_mem rn hx.1, hx.2⟩
        · rintro (hx | ⟨hx1, hx2⟩)
          · exact Or.inl hx
          · rcases List.mem_cons.mp hx1 with rfl | hx3
            · exact Or.inl hmemset
            · exact Or.inr ⟨hx3, hx2⟩
      · obtain ⟨p, hpp⟩ := hp rn (List.mem_cons_self rn rest) hl
        obtain ⟨hadd, hwfn⟩ := heapAdd_new prio heap rn p hwf hmemset hpp
        have hred : collectFrom heap prio labeled (rn :: rest) =
            collectFrom ⟨heap.heap ++ [(rn, p)], heap.set ++ [rn]⟩
              prio labeled rest := by
          rw [collectFrom, if_neg hl, hadd]
          rfl
        obtain ⟨heap', hrun, hwf', hchar⟩ := ih _ hwfn hprest
        refine ⟨heap', by rw [hred]; exact hrun, hwf', fun x => ?_⟩
        rw [hchar x]
        constructor
        · rintro (hx | hx)
          · rcases List.mem_append.mp hx with hx2 | hx2
            · exact Or.inl hx2
            · rw [List.mem_singleton] at hx2
              subst hx2
              exact Or.inr ⟨List.mem_cons_self _ _, hl⟩
          · exact Or.inr ⟨List.mem_cons_of_mem rn hx.1, hx.2⟩
        · rintro (hx | ⟨hx1, hx2⟩)
          · exact Or.inl (List.mem_append.mpr (Or.inl hx))
          · rcases List.mem_cons.mp hx1 with rfl | hx3
            · exact Or.inl (List.mem_append.mpr (Or.inr (List.mem_singleton.mpr rfl)))
            · exact Or.inr ⟨hx3, hx2⟩

/-- Helper: the collection pass gathers, into the heap, exactly the
unlabeled vertices with an edge to a labeled vertex. -/
theorem collectAdj_go_spec (prio : Nat → M Int) (g rev : Dict (List Nat))
    (labeled : List Nat) (hrev : revSpec g rev)
    (hprio : ∀ u ∈ dKeys g, ∃ p, prio u = .ok p) :
    ∀ (lab : List Nat) (heap : HeapSet), lab ⊆ labeled →
      (∀ v ∈ lab, v ∈ dKeys g) → heap.wfBy prio →
      ∃ heap', collectAdjacentToLabeled.go rev prio labeled heap lab = .ok heap' ∧
        heap'.wfBy prio ∧
        (∀ x, x ∈ heap'.set ↔ x ∈ heap.set ∨
          ∃ v ∈ lab, x ∈ lookupD rev v ∧ x ∉ labeled) := by
  intro lab
  induction lab with
  | nil =>
    intro heap _ _ hwf
    exact ⟨heap, rfl, hwf, fun x => by simp⟩
  | cons v rest ih =>
    intro heap hsub hkeys hwf
    have hvg : v ∈ dKeys g := hkeys v (List.mem_cons_self v rest)
    have hvrev : v ∈ dKeys rev := by rw [hrev.1]; exact hvg
    obtain ⟨rns, hrns⟩ := dLookup_some_of_mem_keys rev v hvrev
    have hrnsD : lookupD rev v = rns := by rw [lookupD, hrns]; rfl
    have hget : dGet rev v = .ok rns := (dGet_eq_ok rev v rns).mpr hrns
    have hpc : ∀ rn ∈ rns, rn ∉ labeled → ∃ p, prio rn = .ok p := by
      intro rn hrn _
      have := (hrev.2.1 v hvrev rn (by rw [hrnsD]; exact hrn)).1
      exact hprio rn this
    obtain ⟨heap1, hcf, hwf1, hchar1⟩ := collectFrom_spec prio labeled rns heap hwf hpc
    have hred : collectAdjacentToLabeled.go rev prio labeled heap (v :: rest) =
        collectAdjacentToLabeled.go rev prio labeled heap1 rest := by
      rw [collectAdjacentToLabeled.go, hget]
      simp only [M_bind_ok]
      rw [hcf]
      rfl
    obtain ⟨heap', hrun, hwf', hchar⟩ :=
      ih heap1 (fun z hz => hsub (List.mem_cons_of_mem v hz))
        (fun z hz => hkeys z (List.mem_cons_of_mem v hz)) hwf1
    refine ⟨heap', by rw [hred]; exact hrun, hwf', fun x => ?_⟩
    rw [hchar x, hchar1 x]
    constructor
    · rintro ((hx | hx) | ⟨w, hw1, hw2⟩)
      · exact Or.inl hx
      · exact Or.inr ⟨v, List.mem_cons_self v rest, by rw [hrnsD]; exact hx.1, hx.2⟩
      · exact Or.inr ⟨w, List.mem_cons_of_mem v hw1, hw2⟩
    · rintro (hx | ⟨w, hw1, hw2, hw3⟩)
      · exact Or.inl (Or.inl hx)
      · rcases List.mem_cons.mp hw1 with rfl | hw4
        · exact Or.inl (Or.inr ⟨by rw [← hrnsD]; exact hw2, hw3⟩)
        · exact Or.inr ⟨w, hw4, hw2, hw3⟩

/-- Claim C4 amended: one iteration of the satisfied pass, on any demand
graph, its reverse graph, any labeled set of graph vertices, and any
priority function defined on the graph's vertices and the labeled set:
among the currently eligible candidates — the unlabeled agents with at
least one labeled OUT-neighbor, i.e. an edge from the agent to a labeled
agent — an agent of minimal priority is resolved first, his selection
edge is fixed to a minimal-priority already-labeled out-neighbor, and the
residual heap again holds only eligible candidates, so the property holds
at every iteration. -/
theorem sat_select_priority_monotone (g rev : Dict (List Nat))
    (prio : Nat → M Int) (sel : Dict Nat) (labeled : List Nat) (heap : HeapSet)
    (hrev : revSpec g rev)
    (hlab : ∀ v ∈ labeled, v ∈ dKeys g)
    (hwf : heap.wfBy prio)
    (hsub : ∀ x ∈ heap.set, outEligible g labeled x = true)
    (hprio : ∀ u ∈ dKeys g, ∃ p, prio u = .ok p)
    (hpriolab : ∀ w ∈ labeled, ∃ p, prio w = .ok p)
    (hne : ∃ u, outEligible g labeled u = true) :
    ∃ v pv tgt ptgt heap2,
      satStep g rev prio sel labeled heap =
        .ok (v, tgt, dSet sel v tgt, sAdd labeled v, heap2) ∧
      outEligible g labeled v = true ∧
      prio v = .ok pv ∧
      (∀ u pu, outEligible g labeled u = true → prio u = .ok pu → pv ≤ pu) ∧
      tgt ∈ lookupD g v ∧ tgt ∈ labeled ∧ prio tgt = .ok ptgt ∧
      (∀ w pw, w ∈ lookupD g v → w ∈ labeled → prio w = .ok pw → ptgt ≤ pw) ∧
      (∀ x ∈ heap2.set, outEligible g (sAdd labeled v) x = true) ∧
      heap2.wfBy prio := by
  obtain ⟨heap1, hcol, hwf1, hchar⟩ :=
    collectAdj_go_spec prio g rev labeled hrev hprio labeled heap
      (fun z hz => hz) hlab hwf
  have hchar2 : ∀ x, x ∈ heap1.set ↔ outEligible g labeled x = true := by
    intro x
    rw [hchar x]
    constructor
    · rintro (hx | ⟨w, hw1, hw2, hw3⟩)
      · exact hsub x hx
      · have hwrev : w ∈ dKeys rev := by rw [hrev.1]; exact hlab w hw1
        have h2 := hrev.2.1 w hwrev x hw2
        rw [outEligible_iff]
        exact ⟨h2.1, hw3, w, h2.2, hw1⟩
    · intro hx
      rw [outEligible_iff] at hx
      obtain ⟨hx1, hx2, w, hw1, hw2⟩ := hx
      exact Or.inr ⟨w, hw2, hrev.2.2 x hx1 w hw1, hx2⟩
  obtain ⟨u0, hu0⟩ := hne
  have hu0m : u0 ∈ heap1.set := (hchar2 u0).mpr hu0
  have hne1 : heap1.heap ≠ [] := by
    intro hh
    have := hwf1.1
    rw [hh] at this
    rw [← this] at hu0m
    cases hu0m
  obtain ⟨v, pv, heap2, hpop, hvm, hpv, hmin, hset2, hwf2⟩ :=
    heapPop_spec prio heap1 hwf1 hne1
  have hvel : outEligible g labeled v = true := (hchar2 v).mp hvm
  have hvkeys : v ∈ dKeys g := ((outEligible_iff g labeled v).mp hvel).1
  obtain ⟨nbrs, hnbrs⟩ := dLookup_some_of_mem_keys g v hvkeys
  have hnbrsD : lookupD g v = nbrs := by rw [lookupD, hnbrs]; rfl
  have hget : dGet g v = .ok nbrs := (dGet_eq_ok g v nbrs).mpr hnbrs
  have hladjne : nbrs.filter (fun n => decide (n ∈ labeled)) ≠ [] := by
    obtain ⟨w, hw1, hw2⟩ := ((outEligible_iff g labeled v).mp hvel).2.2
    intro hh
    have : w ∈ nbrs.filter (fun n => decide (n ∈ labeled)) :=
      List.mem_filter.mpr ⟨by rw [← hnbrsD]; exact hw1, by simpa using hw2⟩
    rw [hh] at this
    cases this
  have hladjp : ∀ y ∈ nbrs.filter (fun n => decide (n ∈ labeled)),
      ∃ p, prio y = .ok p := by
    intro y hy
    exact hpriolab y (by simpa using (List.mem_filter.mp hy).2)
  obtain ⟨tgt, ptgt, hminr, htgtm, hptgt, htmin⟩ :=
    pyMin_spec prio (nbrs.filter (fun n => decide (n ∈ labeled))) hladjne hladjp
  refine ⟨v, pv, tgt, ptgt, heap2, ?_, hvel, hpv, ?_, ?_, ?_, hptgt, ?_, ?_, hwf2⟩
  · simp only [satStep, collectAdjacentToLabeled, hcol, hpop, hget, hminr, M_bind_ok]
  · intro u pu hu hpu
    exact hmin u pu ((hchar2 u).mpr hu) hpu
  · rw [hnbrsD]
    exact (List.mem_filter.mp htgtm).1
  · simpa using (List.mem_filter.mp htgtm).2
  · intro w pw hw1 hw2 hpw
    refine htmin w pw (List.mem_filter.mpr ⟨by rw [← hnbrsD]; exact hw1, by simpa using hw2⟩) hpw
  · intro x hx
    rw [hset2] at hx
    have hxold : x ∈ heap1.set := List.mem_of_mem_erase hx
    have hxel := (hchar2 x).mp hxold
    have hxne : x ≠ v := by
      intro hh
      subst hh
      exact (List.Nodup.not_mem_erase hwf1.2.1) hx
    rw [outEligible_iff] at hxel ⊢
    obtain ⟨h1, h2, w, hw1, hw2⟩ := hxel
    refine ⟨h1, ?_, w, hw1, sAdd_subset labeled v hw2⟩
    intro hh
    rcases (mem_sAdd labeled v x).mp hh with hh2 | hh2
    · exact h2 hh2
    · exact hxne hh2

/-- Claim C4 counterexample: on the demand graph 1 ↦ [2], 2 ↦ [2] with
labeled set {2}, the satisfied pass resolves agent 1 first (his edge goes
TO the labeled agent 2), yet no unlabeled agent has a labeled
in-neighbor, so the claim's eligible-candidate set is empty: eligibility
in the source is having a labeled out-neighbor, not a labeled
in-neighbor. -/
theorem sat_select_inneighbor_counterexample :
    reverseGraph [(1, [2]), (2, [2])] = .ok [(1, []), (2, [1, 2])] ∧
    (satStep [(1, [2]), (2, [2])] [(1, []), (2, [1, 2])]
        (fun a => dGet ([(1, 10), (2, 20)] : Dict Int) a) [] [2] HeapSet.empty).map
        (fun r => (r.1, r.2.1)) = .ok (1, 2) ∧
    inNbrEligible [(1, [2]), (2, [2])] [2] 1 = false ∧
    inNbrEligible [(1, [2]), (2, [2])] [2] 2 = false :=
  ⟨rfl, rfl, rfl, rfl⟩

/-- Witness for the amended satisfied-pass theorem at the concrete state
of the counterexample: agent 1 is the (only) eligible candidate and is
resolved with his edge fixed to the labeled agent 2. -/
theorem sat_select_priority_monotone_witness :
    ∃ v pv tgt ptgt heap2,
      satStep [(1, [2]), (2, [2])] [(1, []), (2, [1, 2])]
          (fun a => dGet ([(1, 10), (2, 20)] : Dict Int) a) [] [2] HeapSet.empty =
        .ok (v, tgt, dSet [] v tgt, sAdd [2] v, heap2) ∧
      outEligible [(1, [2]), (2, [2])] [2] v = true ∧
      (fun a => dGet ([(1, 10), (2, 20)] : Dict Int) a) v = .ok pv ∧
      (∀ u pu, outEligible [(1, [2]), (2, [2])] [2] u = true →
        (fun a => dGet ([(1, 10), (2, 20)] : Dict Int) a) u = .ok pu → pv ≤ pu) ∧
      tgt ∈ lookupD [(1, [2]), (2, [2])] v ∧ tgt ∈ [2] ∧
      (fun a => dGet ([(1, 10), (2, 20)] : Dict Int) a) tgt = .ok ptgt ∧
      (∀ w pw, w ∈ lookupD [(1, [2]), (2, [2])] v → w ∈ [2] →
        (fun a => dGet ([(1, 10), (2, 20)] : Dict Int) a) w = .ok pw → ptgt ≤ pw) ∧
      (∀ x ∈ heap2.set, outEligible [(1, [2]), (2, [2])] (sAdd [2] v) x = true) ∧
      heap2.wfBy (fun a => dGet ([(1, 10), (2, 20)] : Dict Int) a) :=
  sat_select_priority_monotone [(1, [2]), (2, [2])] [(1, []), (2, [1, 2])]
    (fun a => dGet ([(1, 10), (2, 20)] : Dict Int) a) [] [2] HeapSet.empty
    (by refine ⟨rfl, ?_, ?_⟩ <;> decide)
    (by decide)
    ⟨rfl, List.nodup_nil, by intro e he; cases he⟩
    (by intro x hx; cases hx)
    (by
      intro u hu
      rcases List.mem_cons.mp hu with rfl | hu2
      · exact ⟨10, rfl⟩
      · rcases List.mem_cons.mp hu2 with rfl | hu3
        · exact ⟨20, rfl⟩
        · cases hu3)
    (by
      intro w hw
      rcases List.mem_cons.mp hw with rfl | hw2
      · exact ⟨20, rfl⟩
      · cases hw2)
    ⟨1, by decide⟩

/-! ## Claim C6: persistence predicates and the persistence pass -/

/-- Helper: the persistence pass never touches selection entries of
vertices that carry no persistence record. -/
theorem persistenceSelect_lookup_stable (ctx : Ctx) :
    ∀ (pt : Dict PersistRec) (sel : Dict Nat) (labeled : List Nat) (w : Nat),
      w ∉ dKeys pt →
      dLookup (persistenceSelect ctx pt sel labeled).1 w = dLookup sel w := by
  intro pt
  induction pt with
  | nil => intro sel labeled w _; rfl
  | cons e rest ih =>
    intro sel labeled w hw
    obtain ⟨v, r⟩ := e
    have h1 : ¬(w = v ∨ w ∈ dKeys rest) := by simpa [dKeys] using hw
    push_neg at h1
    cases heval : persistEval ctx r with
    | none =>
      simp only [persistenceSelect, heval]
      exact ih sel labeled w h1.2
    | some t =>
      by_cases ht : pyTruthy t = true
      · simp only [persistenceSelect, heval, if_pos ht]
        rw [ih (dSet sel v t) (sAdd labeled v) w h1.2]
        exact dLookup_dSet_ne sel v w t (fun hh => h1.1 hh.symm)
      · simp only [persistenceSelect, heval, if_neg ht]
        exact ih sel labeled w h1.2

/-- Helper: the persistence pass only adds to the labeled set. -/
theorem persistenceSelect_labeled_mono (ctx : Ctx) :
    ∀ (pt : Dict PersistRec) (sel : Dict Nat) (labeled : List Nat),
      labeled ⊆ (persistenceSelect ctx pt sel labeled).2 := by
  intro pt
  induction pt with
  | nil => intro sel labeled; exact fun x hx => hx
  | cons e rest ih =>
    intro sel labeled
    obtain ⟨v, r⟩ := e
    cases heval : persistEval ctx r with
    | none =>
      simp only [persistenceSelect, heval]
      exact ih sel labeled
    | some t =>
      by_cases ht : pyTruthy t = true
      · simp only [persistenceSelect, heval, if_pos ht]
        exact fun x hx => ih (dSet sel v t) (sAdd labeled v) (sAdd_subset labeled v hx)
      · simp only [persistenceSelect, heval, if_neg ht]
        exact ih sel labeled

/-- Helper: a vertex whose predicate evaluates to a truthy target gets
exactly that edge in the selection built by the persistence pass, and is
marked labeled. -/
theorem persistenceSelect_fixes (ctx : Ctx) :
    ∀ (pt : Dict PersistRec) (sel : Dict Nat) (labeled : List Nat)
      (v : Nat) (r : PersistRec) (t : Nat),
      (v, r) ∈ pt → (dKeys pt).Nodup → persistEval ctx r = some t →
      pyTruthy t = true →
      dLookup (persistenceSelect ctx pt sel labeled).1 v = some t ∧
      v ∈ (persistenceSelect ctx pt sel labeled).2 := by
  intro pt
  induction pt with
  | nil => intro _ _ _ _ _ hmem _ _ _; cases hmem
  | cons e rest ih =>
    intro sel labeled v r t hmem hnd heval ht
    obtain ⟨v', r'⟩ := e
    have hnd2 : v' ∉ dKeys rest ∧ (dKeys rest).Nodup := by
      simpa [dKeys] using hnd
    rcases List.mem_cons.mp hmem with heq | hrest
    · obtain ⟨h1, h2⟩ := Prod.mk.injEq .. ▸ heq
      subst h1; subst h2
      simp only [persistenceSelect, heval, if_pos ht]
      refine ⟨?_, ?_⟩
      · rw [persistenceSelect_lookup_stable ctx rest _ _ v hnd2.1]
        exact dLookup_dSet_self sel v t
      · exact persistenceSelect_labeled_mono ctx rest _ _ (self_mem_sAdd labeled v)
    · cases heval' : persistEval ctx r' with
      | none =>
        simp only [persistenceSelect, heval']
        exact ih sel labeled v r t hrest hnd2.2 heval ht
      | some t' =>
        by_cases ht' : pyTruthy t' = true
        · simp only [persistenceSelect, heval', if_pos ht']
          exact ih _ _ v r t hrest hnd2.2 heval ht
        · simp only [persistenceSelect, heval', if_neg ht']
          exact ih sel labeled v r t hrest hnd2.2 heval ht

/-- Claim C6 counterexample: a predicate that returns the target agent 0
(not "no"): `_persistence_select`'s `if persist:` treats the returned
agent 0 as falsy, fixes no edge and labels nothing, although the
predicate's condition holds and it returned a target. -/
theorem persistence_truthiness_counterexample :
    persistEval ctxC6 ⟨0, 2, 5⟩ = some 0 ∧
    persistenceSelect ctxC6 [(1, ⟨0, 2, 5⟩)] [] [] = ([], []) :=
  ⟨rfl, rfl⟩

/-- Claim C6 amended: a recorded predicate returns the stored selection
edge exactly when its target still currently holds the captured object,
and returns "no" otherwise; in the persistence pass, every vertex whose
predicate returns a target other than the falsy agent 0 has exactly that
edge fixed and is marked labeled (a returned target of 0 is dropped like
"no", as the counterexample shows). -/
theorem persistence_select_correct (ctx : Ctx) (pt : Dict PersistRec)
    (v : Nat) (r : PersistRec) (hmem : (v, r) ∈ pt)
    (hnd : (dKeys pt).Nodup) :
    (dLookup ctx.curr_ends r.target = some r.obj →
      persistEval ctx r = some r.edge) ∧
    (dLookup ctx.curr_ends r.target ≠ some r.obj →
      persistEval ctx r = none) ∧
    (r.edge ≠ 0 → persistEval ctx r = some r.edge →
      dLookup (persistenceSelect ctx pt [] []).1 v = some r.edge ∧
      v ∈ (persistenceSelect ctx pt [] []).2) := by
  refine ⟨fun h => ?_, fun h => ?_, fun hne heval => ?_⟩
  · rw [persistEval, if_pos h]
  · rw [persistEval, if_neg h]
  · exact persistenceSelect_fixes ctx pt [] [] v r r.edge hmem hnd heval
      (by simpa [pyTruthy] using hne)

/-- Witness for the amended persistence theorem: a record with truthy
edge 7 whose condition holds gets its edge fixed and its vertex
labeled. -/
theorem persistence_select_correct_witness :
    persistEval ctxC6 ⟨7, 2, 5⟩ = some 7 ∧
    dLookup (persistenceSelect ctxC6 [(1, ⟨7, 2, 5⟩)] [] []).1 1 = some 7 ∧
    1 ∈ (persistenceSelect ctxC6 [(1, ⟨7, 2, 5⟩)] [] []).2 := by
  have h := persistence_select_correct ctxC6 [(1, ⟨7, 2, 5⟩)] 1 ⟨7, 2, 5⟩
    (by decide) (by decide)
  have he : persistEval ctxC6 ⟨7, 2, 5⟩ = some 7 := h.1 rfl
  have hf := h.2.2 (by decide) he
  exact ⟨he, hf.1, hf.2⟩

/-! ## Claim C3: divergence of the round loop -/

/-- Helper: results of the round loop always have an empty preference
map. -/
theorem ttcLoop_prefs_empty :
    ∀ fuel c c', ttcLoop fuel c = .ok c' → c'.prefs.isEmpty = true := by
  intro fuel
  induction fuel with
  | zero =>
    intro c c' h
    by_cases hp : c.prefs.isEmpty
    · rw [ttcLoop, if_pos hp] at h
      cases h; exact hp
    · rw [ttcLoop, if_neg hp] at h
      cases h
  | succ n ih =>
    intro c c' h
    by_cases hp : c.prefs.isEmpty
    · rw [ttcLoop, if_pos hp] at h
      cases h; exact hp
    · rw [ttcLoop, if_neg hp] at h
      cases hr : roundBody c with
      | error e => rw [hr] at h; cases h
      | ok c1 =>
        rw [hr] at h
        exact ih c1 c' h

/-- Helper: when the next two round bodies end in fuel exhaustion, the
round loop does so under every fuel of at least two. -/
theorem ttcLoop_probe_fuelErr (k : Nat) (c : Ctx)
    (hp : c.prefs.isEmpty = false) (hprobe : probe c = .error .fuelErr) :
    ttcLoop (k + 2) c = .error .fuelErr := by
  rw [ttcLoop, if_neg (by simp [hp])]
  cases hr : roundBody c with
  | error e =>
    unfold probe at hprobe
    rw [hr] at hprobe
    have h2 : (Except.error e : M Ctx) = .error .fuelErr := hprobe
    cases h2
    rfl
  | ok c1 =>
    unfold probe at hprobe
    rw [hr] at hprobe
    have h2 : (if c1.prefs.isEmpty then (pure c1 : M Ctx) else roundBody c1) =
        .error .fuelErr := hprobe
    by_cases h1 : c1.prefs.isEmpty
    · rw [if_pos h1] at h2
      cases h2
    · rw [if_neg h1] at h2
      show ttcLoop (k + 1) c1 = .error .fuelErr
      rw [ttcLoop, if_neg (by simp [h1]), h2]
      rfl

/-- Claim C3 (code_bug evidence): the round loop of `ttc` does not
terminate on the well-formed six-agent input `prefs6`/`ends6`/`prio6`
(distinct objects, all priorities present, equal key sets): for every
fuel the run ends in fuel exhaustion.  In round two, the persistence pass
fixes agent 1's stale edge while agents 5 and 6 have been allocated, the
selection graph acquires the satisfied two-cycle between agents 1 and 2,
and `_first_reachable_unsat` follows it forever. -/
theorem ttc_diverges_on_stale_persistence :
    ∀ fuel, ttc fuel prefs6 ends6 prio6 = .error .fuelErr := by
  intro fuel
  match fuel with
  | 0 => rfl
  | 1 => rfl
  | (k + 2) =>
    have h := ttcLoop_probe_fuelErr k (initCtx prefs6 ends6 prio6) rfl rfl
    show (ttcLoop (k + 2) (initCtx prefs6 ends6 prio6)).map Ctx.alloc = _
    rw [h]
    rfl

/-! ## Conservation of objects through `_trade` -/

theorem perm_snoc_swap (l : List Nat) (a b : Nat) :
    ((l ++ [a]) ++ [b]).Perm ((l ++ [b]) ++ [a]) := by
  rw [List.append_assoc, List.append_assoc]
  exact List.Perm.append_left l (List.Perm.swap b a [])

theorem lastOf_mem : ∀ (ys : List Nat) (y : Nat), lastOf y ys ∈ y :: ys := by
  intro ys
  induction ys with
  | nil => intro y; exact List.mem_cons_self _ _
  | cons z rest ih =>
    intro y
    exact List.mem_cons_of_mem y (ih z)

theorem lastOf_append : ∀ (xs : List Nat) (y c : Nat), lastOf y (xs ++ [c]) = c := by
  intro xs
  induction xs with
  | nil => intro y c; rfl
  | cons z rest ih => intro y c; exact ih z c

theorem getLast_eq_lastOf : ∀ (ys : List Nat) (y : Nat) (h : (y :: ys) ≠ []),
    (y :: ys).getLast h = lastOf y ys := by
  intro ys
  induction ys with
  | nil => intro y h; rfl
  | cons z rest ih =>
    intro y h
    exact ih z (by simp)

theorem head_reverse_lastOf : ∀ (ys : List Nat) (y x : Nat) (xs : List Nat),
    (x :: xs).reverse = y :: ys → lastOf x xs = y := by
  intro ys y x xs h
  have h2 : x :: xs = ys.reverse ++ [y] := by
    rw [← List.reverse_reverse (x :: xs), h, List.reverse_cons]
  cases hys : ys.reverse with
  | nil =>
    rw [hys] at h2
    have h4 : x :: xs = [y] := h2
    injection h4 with ha hb
    subst ha
    subst hb
    rfl
  | cons a t =>
    rw [hys] at h2
    have h4 : x :: xs = a :: (t ++ [y]) := h2
    injection h4 with ha hb
    subst ha
    subst hb
    exact lastOf_append t x y

theorem lastOf_reverse_head : ∀ (xs : List Nat) (x y : Nat) (ys : List Nat),
    (x :: xs).reverse = y :: ys → lastOf y ys = x := by
  intro xs x y ys h
  have h2 : (y :: ys).reverse = x :: xs := by rw [← h, List.reverse_reverse]
  exact head_reverse_lastOf xs x y ys h2

theorem consecPairs_snoc : ∀ (xs : List Nat) (z c0 : Nat),
    consecPairs (xs ++ [z, c0]) = consecPairs (xs ++ [z]) ++ [(z, c0)] := by
  intro xs
  induction xs with
  | nil => intro z c0; rfl
  | cons x rest ih =>
    intro z c0
    cases rest with
    | nil => rfl
    | cons x2 rest2 =>
      have h1 : consecPairs ((x :: x2 :: rest2) ++ [z, c0]) =
          (x, x2) :: consecPairs ((x2 :: rest2) ++ [z, c0]) := rfl
      have h2 : consecPairs ((x :: x2 :: rest2) ++ [z]) =
          (x, x2) :: consecPairs ((x2 :: rest2) ++ [z]) := rfl
      rw [h1, h2, ih z c0]
      rfl

theorem trade_pairs_eq_consec : ∀ (crest : List Nat) (c0 : Nat),
    (crest.zip ((c0 :: crest).dropLast)).reverse =
      consecPairs ((c0 :: crest).reverse) := by
  intro crest
  induction crest with
  | nil => intro c0; rfl
  | cons c1 rest ih =>
    intro c0
    have h1 : ((c1 :: rest).zip ((c0 :: c1 :: rest).dropLast)) =
        (c1, c0) :: rest.zip ((c1 :: rest).dropLast) := rfl
    rw [h1, List.reverse_cons, ih c1]
    have h2 : (c0 :: c1 :: rest).reverse = rest.reverse ++ [c1, c0] := by
      rw [List.reverse_cons, List.reverse_cons, List.append_assoc]
      rfl
    have h3 : (c1 :: rest).reverse = rest.reverse ++ [c1] := List.reverse_cons c1 rest
    rw [h2, h3, consecPairs_snoc]

theorem tradeAssign_consec : ∀ (ys : List Nat) (y : Nat) (ce ce2 : Dict Nat) (vy : Nat),
    (y :: ys).Nodup → dLookup ce y = some vy →
    tradeAssign ce (consecPairs (y :: ys)) = .ok ce2 →
    ∃ vm, dLookup ce (lastOf y ys) = some vm ∧
      dLookup ce2 (lastOf y ys) = some vm ∧
      dKeys ce2 = dKeys ce ∧
      (dVals ce2 ++ [vy]).Perm (dVals ce ++ [vm]) := by
  intro ys
  induction ys with
  | nil =>
    intro y ce ce2 vy _ hvy h
    have h2 : (Except.ok ce : M (Dict Nat)) = .ok ce2 := h
    cases h2
    exact ⟨vy, hvy, hvy, rfl, List.Perm.refl _⟩
  | cons z rest ih =>
    intro y ce ce2 vy hnd hvy h
    have hstep : ((dGet ce z) >>= fun pv =>
        tradeAssign (dSet ce y pv) (consecPairs (z :: rest))) = .ok ce2 := h
    cases hg : dGet ce z with
    | error e =>
      rw [hg] at hstep
      have h3 : (Except.error e : M (Dict Nat)) = .ok ce2 := hstep
      cases h3
    | ok vz =>
      rw [hg, M_bind_ok] at hstep
      have hvz : dLookup ce z = some vz := (dGet_eq_ok ce z vz).mp hg
      have hndc := List.nodup_cons.mp hnd
      have hyz : y ≠ z := fun hh => hndc.1 (hh ▸ List.mem_cons_self z rest)
      have hlz : dLookup (dSet ce y vz) z = some vz := by
        rw [dLookup_dSet_ne ce y z vz hyz]
        exact hvz
      obtain ⟨vm, hm1, hm2, hkeys, hperm⟩ :=
        ih z (dSet ce y vz) ce2 vz hndc.2 hlz hstep
      have hlast_ne_y : lastOf z rest ≠ y := by
        have hmem : lastOf z rest ∈ z :: rest := lastOf_mem rest z
        intro hh
        rw [hh] at hmem
        exact hndc.1 hmem
      have hm1' : dLookup ce (lastOf z rest) = some vm := by
        rw [← dLookup_dSet_ne ce y (lastOf z rest) vz (fun hh => hlast_ne_y hh.symm)]
        exact hm1
      have hkeys' : dKeys ce2 = dKeys ce := by
        rw [hkeys, dKeys_dSet_present ce y vy vz hvy]
      have hp1 := dVals_dSet_perm ce y vy vz hvy
      have hcmb : ((dVals ce2 ++ [vy]) ++ [vz]).Perm ((dVals ce ++ [vm]) ++ [vz]) := by
        refine List.Perm.trans (perm_snoc_swap _ vy vz) ?_
        refine List.Perm.trans (List.Perm.append_right [vy] hperm) ?_
        refine List.Perm.trans (perm_snoc_swap _ vm vy) ?_
        refine List.Perm.trans (List.Perm.append_right [vm] hp1) ?_
        exact perm_snoc_swap _ vz vm
      exact ⟨vm, hm1', hm2, hkeys', (List.perm_append_right_iff [vz]).mp hcmb⟩

theorem tradeCycle_conserve : ∀ (cycle : List Nat) (ce ce2 : Dict Nat),
    cycle.Nodup → tradeCycle ce cycle = .ok ce2 →
    dKeys ce2 = dKeys ce ∧ (dVals ce2).Perm (dVals ce) := by
  intro cycle ce ce2 hnd h
  cases cycle with
  | nil => cases h
  | cons c0 crest =>
    have h2 : ((dGet ce ((c0 :: crest).getLast (by simp))) >>= fun lastEnd =>
        if crest.length + 1 > 1 then
          (tradeAssign ce ((crest.zip ((c0 :: crest).dropLast)).reverse)) >>=
            fun ce3 => (Except.ok (dSet ce3 c0 lastEnd) : M (Dict Nat))
        else .ok ce) = .ok ce2 := h
    cases hg : dGet ce ((c0 :: crest).getLast (by simp)) with
    | error e =>
      rw [hg] at h2
      have h3 : (Except.error e : M (Dict Nat)) = .ok ce2 := h2
      cases h3
    | ok lastv =>
      rw [hg, M_bind_ok] at h2
      cases crest with
      | nil =>
        rw [if_neg (by decide)] at h2
        have h3 : (Except.ok ce : M (Dict Nat)) = .ok ce2 := h2
        cases h3
        exact ⟨rfl, List.Perm.refl _⟩
      | cons c1 crest2 =>
        rw [if_pos (show (c1 :: crest2).length + 1 > 1 by
          simp only [List.length_cons]; omega)] at h2
        cases ha : tradeAssign ce
            (((c1 :: crest2).zip ((c0 :: c1 :: crest2).dropLast)).reverse) with
        | error e =>
          rw [ha] at h2
          have h3 : (Except.error e : M (Dict Nat)) = .ok ce2 := h2
          cases h3
        | ok ce3 =>
          rw [ha, M_bind_ok] at h2
          injection h2 with h3
          rw [trade_pairs_eq_consec] at ha
          rcases hrev : (c0 :: c1 :: crest2).reverse with _ | ⟨y, ys⟩
          · simp at hrev
          · have hndrev : (y :: ys).Nodup := by
              rw [← hrev]
              exact List.nodup_reverse.mpr hnd
            have hheadlast : lastOf c0 (c1 :: crest2) = y :=
              head_reverse_lastOf ys y c0 (c1 :: crest2) hrev
            have hvy : dLookup ce y = some lastv := by
              have h4 := (dGet_eq_ok ce _ lastv).mp hg
              rw [getLast_eq_lastOf, hheadlast] at h4
              exact h4
            have hlastrev : lastOf y ys = c0 :=
              lastOf_reverse_head (c1 :: crest2) c0 y ys hrev
            rw [hrev] at ha
            obtain ⟨vm, hm1, hm2, hkeys, hperm⟩ :=
              tradeAssign_consec ys y ce ce3 lastv hndrev hvy ha
            rw [hlastrev] at hm1 hm2
            rw [← h3]
            constructor
            · rw [dKeys_dSet_present ce3 c0 vm lastv hm2, hkeys]
            · have hp2 := dVals_dSet_perm ce3 c0 vm lastv hm2
              have hcmb : (dVals (dSet ce3 c0 lastv) ++ [vm]).Perm
                  (dVals ce ++ [vm]) := List.Perm.trans hp2 hperm
              exact (List.perm_append_right_iff [vm]).mp hcmb

theorem tradeCycles_conserve : ∀ (cycles : List (List Nat)) (ce ce2 : Dict Nat),
    (∀ c ∈ cycles, c.Nodup) → tradeCycles ce cycles = .ok ce2 →
    dKeys ce2 = dKeys ce ∧ (dVals ce2).Perm (dVals ce) := by
  intro cycles
  induction cycles with
  | nil =>
    intro ce ce2 _ h
    have h2 : (Except.ok ce : M (Dict Nat)) = .ok ce2 := h
    cases h2
    exact ⟨rfl, List.Perm.refl _⟩
  | cons c rest ih =>
    intro ce ce2 hnd h
    have h2 : ((tradeCycle ce c) >>= fun ce3 => tradeCycles ce3 rest) = .ok ce2 := h
    cases hc : tradeCycle ce c with
    | error e =>
      rw [hc] at h2
      have h3 : (Except.error e : M (Dict Nat)) = .ok ce2 := h2
      cases h3
    | ok ce3 =>
      rw [hc, M_bind_ok] at h2
      obtain ⟨hk1, hp1⟩ := tradeCycle_conserve c ce ce3 (hnd c (List.mem_cons_self c rest)) hc
      obtain ⟨hk2, hp2⟩ := ih ce3 ce2 (fun d hd => hnd d (List.mem_cons_of_mem c hd)) h2
      exact ⟨hk2.trans hk1, hp2.trans hp1⟩

theorem coeApp (l1 l2 : List Nat) :
    ((l1 ++ l2 : List Nat) : Multiset Nat) = (l1 : Multiset Nat) + (l2 : Multiset Nat) := rfl

theorem coeCons (a : Nat) (l : List Nat) :
    ((a :: l : List Nat) : Multiset Nat) = ({a} : Multiset Nat) + (l : Multiset Nat) :=
  (Multiset.singleton_add a l).symm

theorem coeNil : (([] : List Nat) : Multiset Nat) = 0 := rfl

theorem dMem_of_lookup_some {β : Type} (d : Dict β) (k : Nat) (v : β)
    (h : dLookup d k = some v) : dMem d k = true := by
  rw [dMem, h]
  rfl

theorem dMem_of_lookup_none {β : Type} (d : Dict β) (k : Nat)
    (h : dLookup d k = none) : dMem d k = false := by
  rw [dMem, h]
  rfl

theorem dMem_false_iff {β : Type} (d : Dict β) (k : Nat) :
    dMem d k = false ↔ k ∉ dKeys d := by
  constructor
  · intro h hk
    rw [(dMem_true_iff d k).mpr hk] at h
    cases h
  · intro h
    exact dMem_of_lookup_none d k ((dLookup_eq_none_iff d k).mpr h)

theorem dMem_eq_of_keys_eq {β γ : Type} (d : Dict β) (d' : Dict γ)
    (h : dKeys d' = dKeys d) (k : Nat) : dMem d' k = dMem d k := by
  cases hm : dMem d k with
  | true =>
    have h2 : k ∈ dKeys d' := by
      rw [h]
      exact (dMem_true_iff d k).mp hm
    exact (dMem_true_iff d' k).mpr h2
  | false =>
    refine (dMem_false_iff d' k).mpr ?_
    rw [h]
    exact (dMem_false_iff d k).mp hm

theorem lookup_of_dDel_decomp {β : Type} (d : Dict β) (k : Nat) (pre post : Dict β)
    (v : β) (hd : d = pre ++ (k, v) :: post) (hkpre : k ∉ dKeys pre) :
    dLookup d k = some v := by
  rw [hd, dLookup_append, (dLookup_eq_none_iff pre k).mpr hkpre]
  show dLookup ((k, v) :: post) k = some v
  rw [dLookup, if_pos rfl]

theorem Inv_congr {T : Nat → Nat} {agents0 objs0 : List Nat} {pr0 : Dict Int}
    {c c' : Ctx} (h : Inv T agents0 objs0 pr0 c)
    (h1 : c'.prefs = c.prefs) (h2 : c'.ends = c.ends)
    (h3 : c'.curr_ends = c.curr_ends) (h4 : c'.alloc = c.alloc)
    (h5 : c'.priority = c.priority) : Inv T agents0 objs0 pr0 c' := by
  simp only [Inv, cnt, objsOf] at h ⊢
  rw [h1, h2, h3, h4, h5]
  exact h

theorem sccList_nodup (g : Dict (List Nat)) (hnd : (dKeys g).Nodup) :
    ∀ (l seen : List Nat) (c : List Nat), c ∈ sccList g l seen → c.Nodup := by
  intro l
  induction l with
  | nil => intro seen c h; cases h
  | cons v rest ih =>
    intro seen c h
    rw [sccList] at h
    by_cases hv : v ∈ seen
    · rw [if_pos hv] at h
      exact ih seen c h
    · rw [if_neg hv] at h
      have h3 : c ∈ sccOf g v :: sccList g rest (seen ++ sccOf g v) := h
      rcases List.mem_cons.mp h3 with h4 | h4
      · rw [h4]
        exact List.Nodup.filter _ hnd
      · exact ih _ c h4

theorem tarjan_nodup (g : Dict (List Nat)) (hnd : (dKeys g).Nodup) :
    ∀ c ∈ tarjan g, c.Nodup :=
  fun c hc => sccList_nodup g hnd (dKeys g) [] c hc

theorem trade_conserve (ctx : Ctx) (sel : Dict Nat) (ctx' : Ctx)
    (hsel : (dKeys sel).Nodup) (h : trade ctx sel = .ok ctx') :
    dKeys ctx'.curr_ends = dKeys ctx.curr_ends ∧
    (dVals ctx'.curr_ends).Perm (dVals ctx.curr_ends) ∧
    ctx'.prefs = ctx.prefs ∧ ctx'.ends = ctx.ends ∧ ctx'.alloc = ctx.alloc ∧
    ctx'.priority = ctx.priority := by
  have hkeq : dKeys (sel.map (fun vn => (vn.1, [vn.2]))) = dKeys sel := by
    simp [dKeys, List.map_map, Function.comp]
  have h2 : ((tradeCycles ctx.curr_ends
      (tarjan (sel.map (fun vn => (vn.1, [vn.2]))))) >>=
      fun ce => (Except.ok { ctx with curr_ends := ce } : M Ctx)) = .ok ctx' := h
  cases hc : tradeCycles ctx.curr_ends (tarjan (sel.map (fun vn => (vn.1, [vn.2])))) with
  | error e =>
    rw [hc] at h2
    have h3 : (Except.error e : M Ctx) = .ok ctx' := h2
    cases h3
  | ok ce =>
    rw [hc, M_bind_ok] at h2
    injection h2 with h3
    obtain ⟨hk, hp⟩ := tradeCycles_conserve _ ctx.curr_ends ce
      (tarjan_nodup _ (by rw [hkeq]; exact hsel)) hc
    rw [← h3]
    exact ⟨hk, hp, rfl, rfl, rfl, rfl⟩

/-! ## Invariant preservation through `_update_ends` -/

theorem updateEndsPass_inv (T : Nat → Nat) (agents0 objs0 : List Nat) (pr0 : Dict Int) :
    ∀ (l : List Nat) (ctx : Ctx) (r : Ctx × List Nat),
    updateEndsPass ctx l = .ok r → Inv T agents0 objs0 pr0 ctx →
    Inv T agents0 objs0 pr0 r.1 ∧
    r.1.prefs = ctx.prefs ∧ r.1.alloc = ctx.alloc ∧
    r.1.persistence_test = ctx.persistence_test ∧
    (∀ a, dLookup ctx.ends a = some [] → dLookup r.1.ends a = some []) ∧
    (∀ a, dLookup ctx.ends a = some [] → dMem ctx.curr_ends a = false →
      dMem r.1.curr_ends a = false) ∧
    (∀ a ∈ r.2, dLookup r.1.ends a = some [] ∧ dMem r.1.curr_ends a = false) := by
  intro l
  induction l with
  | nil =>
    intro ctx r h hinv
    have h2 : (Except.ok (ctx, ([] : List Nat)) : M (Ctx × List Nat)) = .ok r := h
    cases h2
    exact ⟨hinv, rfl, rfl, rfl, fun a ha => ha, fun a _ hm => hm,
      fun a ha => absurd ha (List.not_mem_nil a)⟩
  | cons agent rest ih =>
    intro ctx r h hinv
    rw [updateEndsPass] at h
    by_cases hmem : dMem ctx.curr_ends agent = true
    · rw [if_pos hmem] at h
      exact ih ctx r h hinv
    · have hmemF : dMem ctx.curr_ends agent = false := by
        cases hb : dMem ctx.curr_ends agent with
        | false => rfl
        | true => exact absurd hb hmem
      rw [if_neg hmem] at h
      cases hg : dGet ctx.ends agent with
      | error e =>
        rw [hg] at h
        have h3 : (Except.error e : M (Ctx × List Nat)) = .ok r := h
        cases h3
      | ok l0 =>
        rw [hg, M_bind_ok] at h
        cases l0 with
        | nil =>
          have hlk : dLookup ctx.ends agent = some [] := (dGet_eq_ok _ _ _).mp hg
          cases hp : updateEndsPass ctx rest with
          | error e =>
            rw [hp] at h
            have h3 : (Except.error e : M (Ctx × List Nat)) = .ok r := h
            cases h3
          | ok pr2 =>
            rw [hp, M_bind_ok] at h
            obtain ⟨ctx1, td⟩ := pr2
            have h2 : (Except.ok (ctx1, agent :: td) : M (Ctx × List Nat)) = .ok r := h
            cases h2
            obtain ⟨hi, hpf, hal, hpt, hfr1, hfr2, htd⟩ := ih ctx (ctx1, td) hp hinv
            refine ⟨hi, hpf, hal, hpt, hfr1, hfr2, ?_⟩
            intro a ha
            rcases List.mem_cons.mp ha with h5 | h5
            · subst h5
              exact ⟨hfr1 a hlk, hfr2 a hlk hmemF⟩
            · exact htd a h5
        | cons e tl =>
          have hlk : dLookup ctx.ends agent = some (e :: tl) := (dGet_eq_ok _ _ _).mp hg
          have h4 : updateEndsPass
              { ctx with ends := dSet ctx.ends agent tl,
                         curr_ends := dSet ctx.curr_ends agent e } rest = .ok r := h
          obtain ⟨i1, i2, i3, i4, i5, i6, i7, i8, i9, i10, i11, i12⟩ := hinv
          have hkeys2 : dKeys (dSet ctx.ends agent tl) = dKeys ctx.ends :=
            dKeys_dSet_present _ _ _ _ hlk
          have hinv2 : Inv T agents0 objs0 pr0
              { ctx with ends := dSet ctx.ends agent tl,
                         curr_ends := dSet ctx.curr_ends agent e } := by
            refine ⟨?_, ?_, i3, ?_, ?_, i6, ?_, ?_, i9, ?_, i11, i12⟩
            · intro a
              rw [dMem_eq_of_keys_eq ctx.ends (dSet ctx.ends agent tl) hkeys2 a]
              exact i1 a
            · intro a ha
              rw [dMem_eq_of_keys_eq ctx.ends (dSet ctx.ends agent tl) hkeys2 a]
              by_cases hae : a = agent
              · subst hae
                exact dMem_of_lookup_some _ _ _ hlk
              · rw [dMem_dSet_ne ctx.curr_ends agent a e (fun hh => hae hh.symm)] at ha
                exact i2 a ha
            · rw [hkeys2]
              exact i4
            · exact dKeys_dSet_nodup _ _ _ i5
            · intro a
              have hc : lenO (dLookup ctx.alloc a) + lenO (dLookup ctx.ends a) +
                  (if dMem ctx.curr_ends a then 1 else 0) = T a := i7 a
              show lenO (dLookup ctx.alloc a) + lenO (dLookup (dSet ctx.ends agent tl) a) +
                  (if dMem (dSet ctx.curr_ends agent e) a then 1 else 0) = T a
              by_cases hae : a = agent
              · subst hae
                rw [dLookup_dSet_self, dMem_dSet_self]
                rw [hlk, hmemF] at hc
                simp only [lenO, Option.getD, List.length_cons, if_true,
                  Bool.false_eq_true, if_false] at hc ⊢
                omega
              · rw [dLookup_dSet_ne ctx.ends agent a tl (fun hh => hae hh.symm),
                    dMem_dSet_ne ctx.curr_ends agent a e (fun hh => hae hh.symm)]
                exact hc
            · obtain ⟨pre, post, hdec, hkpre, hset⟩ :=
                dSet_decomp ctx.ends agent (e :: tl) tl hlk
              have hce2 : dSet ctx.curr_ends agent e = ctx.curr_ends ++ [(agent, e)] :=
                dSet_absent _ _ _ hmemF
              show ((dVals (dSet ctx.ends agent tl)).flatten ++
                  dVals (dSet ctx.curr_ends agent e) ++
                  (dVals ctx.alloc).flatten).Perm objs0
              refine List.Perm.trans ?_ i8
              show ((dVals (dSet ctx.ends agent tl)).flatten ++
                  dVals (dSet ctx.curr_ends agent e) ++
                  (dVals ctx.alloc).flatten).Perm
                  ((dVals ctx.ends).flatten ++ dVals ctx.curr_ends ++
                  (dVals ctx.alloc).flatten)
              rw [hset, hdec, hce2]
              simp only [dVals_append, List.flatten_append]
              have hv1 : dVals ((agent, tl) :: post) = tl :: dVals post := rfl
              have hv2 : dVals ((agent, e :: tl) :: post) = (e :: tl) :: dVals post := rfl
              have hv3 : dVals [(agent, e)] = [e] := rfl
              rw [hv1, hv2, hv3]
              simp only [List.flatten_cons]
              refine Multiset.coe_eq_coe.mp ?_
              simp only [coeApp, coeCons, coeNil]
              abel
            · intro a ha
              rw [dMem_eq_of_keys_eq ctx.ends (dSet ctx.ends agent tl) hkeys2 a] at ha
              exact i10 a ha
          obtain ⟨hi, hpf, hal, hpt, hfr1, hfr2, htd⟩ := ih _ r h4 hinv2
          refine ⟨hi, hpf, hal, hpt, ?_, ?_, htd⟩
          · intro a ha
            have hane : a ≠ agent := by
              intro hh
              rw [hh, hlk] at ha
              injection ha with ha2
              cases ha2
            refine hfr1 a ?_
            show dLookup (dSet ctx.ends agent tl) a = some []
            rw [dLookup_dSet_ne ctx.ends agent a tl (fun hh => hane hh.symm)]
            exact ha
          · intro a ha hm
            have hane : a ≠ agent := by
              intro hh
              rw [hh, hlk] at ha
              injection ha with ha2
              cases ha2
            refine hfr2 a ?_ ?_
            · show dLookup (dSet ctx.ends agent tl) a = some []
              rw [dLookup_dSet_ne ctx.ends agent a tl (fun hh => hane hh.symm)]
              exact ha
            · show dMem (dSet ctx.curr_ends agent e) a = false
              rw [dMem_dSet_ne ctx.curr_ends agent a e (fun hh => hane hh.symm)]
              exact hm

theorem updateEndsDelete_inv (T : Nat → Nat) (agents0 objs0 : List Nat) (pr0 : Dict Int) :
    ∀ (td : List Nat) (ctx : Ctx) (ctx' : Ctx),
    updateEndsDelete ctx td = .ok ctx' → Inv T agents0 objs0 pr0 ctx →
    (∀ a ∈ td, (dLookup ctx.ends a = some [] ∨ dLookup ctx.ends a = none) ∧
      dMem ctx.curr_ends a = false) →
    Inv T agents0 objs0 pr0 ctx' ∧ ctx'.alloc = ctx.alloc ∧
    ctx'.curr_ends = ctx.curr_ends := by
  intro td
  induction td with
  | nil =>
    intro ctx ctx' h hinv _
    have h2 : (Except.ok ctx : M Ctx) = .ok ctx' := h
    cases h2
    exact ⟨hinv, rfl, rfl⟩
  | cons agent rest ih =>
    intro ctx ctx' h hinv htd
    rw [updateEndsDelete] at h
    have h2 := h
    cases hde : dDel ctx.ends agent with
    | error e =>
      rw [hde] at h2
      have h3 : (Except.error e : M Ctx) = .ok ctx' := h2
      cases h3
    | ok ends1 =>
      rw [hde, M_bind_ok] at h2
      cases hdp : dDel ctx.prefs agent with
      | error e =>
        rw [hdp] at h2
        have h3 : (Except.error e : M Ctx) = .ok ctx' := h2
        cases h3
      | ok prefs1 =>
        rw [hdp, M_bind_ok] at h2
        have hnext : ∃ pt1, updateEndsDelete
            { ctx with ends := ends1, prefs := prefs1, persistence_test := pt1 } rest =
            .ok ctx' := by
          cases hie : ctx.persistence_test.isEmpty with
          | true =>
            rw [hie] at h2
            exact ⟨ctx.persistence_test, h2⟩
          | false =>
            rw [hie] at h2
            cases hdpt : dDel ctx.persistence_test agent with
            | error e =>
              rw [hdpt] at h2
              have h3 : (Except.error e : M Ctx) = .ok ctx' := h2
              cases h3
            | ok pt1 =>
              rw [hdpt] at h2
              exact ⟨pt1, h2⟩
        obtain ⟨pt1, h3⟩ := hnext
        · obtain ⟨i1, i2, i3, i4, i5, i6, i7, i8, i9, i10, i11, i12⟩ := hinv
          obtain ⟨hor, hcem⟩ := htd agent (List.mem_cons_self agent rest)
          obtain ⟨pre, v, post, hdec, hkpre, hdel⟩ := dDel_decomp ctx.ends agent ends1 hde
          have hlkv : dLookup ctx.ends agent = some v :=
            lookup_of_dDel_decomp ctx.ends agent pre post v hdec hkpre
          have hveq : v = [] := by
            rcases hor with h4 | h4
            · rw [hlkv] at h4
              injection h4
            · rw [hlkv] at h4
              cases h4
          subst hveq
          have hkE : ∀ b, b ≠ agent → dLookup ends1 b = dLookup ctx.ends b :=
            fun b hb => dLookup_dDel_ne ctx.ends agent ends1 hde b hb
          have hkEself : dLookup ends1 agent = none :=
            dLookup_dDel_self ctx.ends agent ends1 hde i4
          have hkP : ∀ b, b ≠ agent → dLookup prefs1 b = dLookup ctx.prefs b :=
            fun b hb => dLookup_dDel_ne ctx.prefs agent prefs1 hdp b hb
          have hkPself : dLookup prefs1 agent = none :=
            dLookup_dDel_self ctx.prefs agent prefs1 hdp i3
          have hinv3 : Inv T agents0 objs0 pr0
              { ctx with ends := ends1, prefs := prefs1, persistence_test := pt1 } := by
            refine ⟨?_, ?_, ?_, ?_, i5, i6, ?_, ?_, i9, ?_, i11, i12⟩
            · intro a
              show dMem prefs1 a = dMem ends1 a
              by_cases hae : a = agent
              · rw [hae, dMem_of_lookup_none _ _ hkPself, dMem_of_lookup_none _ _ hkEself]
              · rw [dMem, dMem, hkP a hae, hkE a hae]
                exact i1 a
            · intro a ha
              have ha2 : dMem ctx.curr_ends a = true := ha
              by_cases hae : a = agent
              · rw [hae, hcem] at ha2
                cases ha2
              · show dMem ends1 a = true
                rw [dMem, hkE a hae]
                exact i2 a ha2
            · exact dKeys_dDel_nodup ctx.prefs agent prefs1 hdp i3
            · exact dKeys_dDel_nodup ctx.ends agent ends1 hde i4
            · intro a
              have hc : lenO (dLookup ctx.alloc a) + lenO (dLookup ctx.ends a) +
                  (if dMem ctx.curr_ends a then 1 else 0) = T a := i7 a
              show lenO (dLookup ctx.alloc a) + lenO (dLookup ends1 a) +
                  (if dMem ctx.curr_ends a then 1 else 0) = T a
              by_cases hae : a = agent
              · rw [hae, hkEself]
                rw [hae, hlkv] at hc
                exact hc
              · rw [hkE a hae]
                exact hc
            · show ((dVals ends1).flatten ++ dVals ctx.curr_ends ++
                  (dVals ctx.alloc).flatten).Perm objs0
              refine List.Perm.trans ?_ i8
              show ((dVals ends1).flatten ++ dVals ctx.curr_ends ++
                  (dVals ctx.alloc).flatten).Perm
                  ((dVals ctx.ends).flatten ++ dVals ctx.curr_ends ++
                  (dVals ctx.alloc).flatten)
              rw [hdel, hdec]
              simp only [dVals_append, List.flatten_append]
              have hv2 : dVals ((agent, ([] : List Nat)) :: post) = [] :: dVals post := rfl
              rw [hv2]
              simp only [List.flatten_cons]
              refine Multiset.coe_eq_coe.mp ?_
              simp only [coeApp, coeCons, coeNil]
              abel
            · intro a ha
              have ha2 : dMem ends1 a = true := ha
              by_cases hae : a = agent
              · rw [hae, dMem_of_lookup_none _ _ hkEself] at ha2
                cases ha2
              · rw [dMem, hkE a hae] at ha2
                exact i10 a ha2
          have htd3 : ∀ a ∈ rest,
              (dLookup ends1 a = some [] ∨ dLookup ends1 a = none) ∧
              dMem ctx.curr_ends a = false := by
            intro a ha
            obtain ⟨hor2, hmem2⟩ := htd a (List.mem_cons_of_mem agent ha)
            refine ⟨?_, hmem2⟩
            by_cases hae : a = agent
            · rw [hae, hkEself]
              exact Or.inr rfl
            · rw [hkE a hae]
              exact hor2
          obtain ⟨hi, hal, hce⟩ := ih _ ctx' h3 hinv3 htd3
          exact ⟨hi, hal, hce⟩

theorem updateEnds_inv (T : Nat → Nat) (agents0 objs0 : List Nat) (pr0 : Dict Int)
    (ctx ctx' : Ctx) (h : updateEnds ctx = .ok ctx')
    (hinv : Inv T agents0 objs0 pr0 ctx) :
    Inv T agents0 objs0 pr0 ctx' ∧ ctx'.alloc = ctx.alloc := by
  have h2 : ((updateEndsPass ctx (dKeys ctx.ends)) >>= fun p =>
      updateEndsDelete p.1 p.2) = .ok ctx' := h
  cases hp : updateEndsPass ctx (dKeys ctx.ends) with
  | error e =>
    rw [hp] at h2
    have h3 : (Except.error e : M Ctx) = .ok ctx' := h2
    cases h3
  | ok p =>
    rw [hp, M_bind_ok] at h2
    obtain ⟨hi1, hpf, hal, hpt, hfr1, hfr2, htd⟩ :=
      updateEndsPass_inv T agents0 objs0 pr0 (dKeys ctx.ends) ctx p hp hinv
    have htd2 : ∀ a ∈ p.2, (dLookup p.1.ends a = some [] ∨ dLookup p.1.ends a = none) ∧
        dMem p.1.curr_ends a = false := by
      intro a ha
      obtain ⟨h4, h5⟩ := htd a ha
      exact ⟨Or.inl h4, h5⟩
    obtain ⟨hi2, hal2, hce2⟩ :=
      updateEndsDelete_inv T agents0 objs0 pr0 p.2 p.1 ctx' h2 hi1 htd2
    refine ⟨hi2, ?_⟩
    rw [hal2, hal]

/-! ## Invariant preservation through sink removal -/

theorem removeAgent_inv_core (T : Nat → Nat) (agents0 objs0 : List Nat) (pr0 : Dict Int)
    (ctx : Ctx) (agent a : Nat) (ce2 : Dict Nat) (alloc2 : Dict (List Nat))
    (g2 : Dict (List Nat)) (cp2 : Dict (List (List Nat)))
    (hga : dLookup ctx.curr_ends agent = some a)
    (hdc : dDel ctx.curr_ends agent = .ok ce2)
    (hnd2 : (dKeys alloc2).Nodup)
    (hlk2 : dLookup alloc2 agent = some ((dLookup ctx.alloc agent).getD [] ++ [a]))
    (hlk2ne : ∀ b, b ≠ agent → dLookup alloc2 b = dLookup ctx.alloc b)
    (hm2 : ((dVals alloc2).flatten : Multiset Nat) =
      ((dVals ctx.alloc).flatten : Multiset Nat) + {a})
    (hmem2 : ∀ b, dMem alloc2 b = true → b = agent ∨ dMem ctx.alloc b = true)
    (hinv : Inv T agents0 objs0 pr0 ctx) :
    Inv T agents0 objs0 pr0 (scrubFromCurrPrefs
      { ctx with alloc := alloc2, curr_ends := ce2, graph := g2, curr_prefs := cp2 } a) := by
  obtain ⟨i1, i2, i3, i4, i5, i6, i7, i8, i9, i10, i11, i12⟩ := hinv
  have hceNone : dLookup ce2 agent = none := dLookup_dDel_self ctx.curr_ends agent ce2 hdc i5
  refine ⟨i1, ?_, i3, i4, ?_, hnd2, ?_, ?_, ?_, i10, ?_, i12⟩
  · intro b hb
    have ha2 : dMem ce2 b = true := hb
    by_cases hae : b = agent
    · rw [hae, dMem, hceNone] at ha2
      exact absurd ha2 (by decide)
    · show dMem ctx.ends b = true
      refine i2 b ?_
      rw [dMem, dLookup_dDel_ne ctx.curr_ends agent ce2 hdc b hae] at ha2
      exact ha2
  · exact dKeys_dDel_nodup ctx.curr_ends agent ce2 hdc i5
  · intro b
    have hc : lenO (dLookup ctx.alloc b) + lenO (dLookup ctx.ends b) +
        (if dMem ctx.curr_ends b then 1 else 0) = T b := i7 b
    show lenO (dLookup alloc2 b) + lenO (dLookup ctx.ends b) +
        (if dMem ce2 b then 1 else 0) = T b
    by_cases hae : b = agent
    · subst hae
      rw [hlk2, dMem_of_lookup_none ce2 b hceNone]
      rw [dMem_of_lookup_some _ _ _ hga] at hc
      simp only [lenO, Option.getD, if_true, Bool.false_eq_true, if_false,
        List.length_append, List.length_cons, List.length_nil] at hc ⊢
      omega
    · rw [hlk2ne b hae, dMem, dLookup_dDel_ne ctx.curr_ends agent ce2 hdc b hae]
      exact hc
  · show ((dVals ctx.ends).flatten ++ dVals ce2 ++ (dVals alloc2).flatten).Perm objs0
    refine List.Perm.trans ?_ i8
    show ((dVals ctx.ends).flatten ++ dVals ce2 ++ (dVals alloc2).flatten).Perm
        ((dVals ctx.ends).flatten ++ dVals ctx.curr_ends ++ (dVals ctx.alloc).flatten)
    obtain ⟨preC, v, postC, hdecC, hkpC, hdelC⟩ := dDel_decomp ctx.curr_ends agent ce2 hdc
    have hva : v = a := by
      have h5 := lookup_of_dDel_decomp ctx.curr_ends agent preC postC v hdecC hkpC
      rw [hga] at h5
      injection h5 with h6
      exact h6.symm
    rw [hva] at hdecC
    rw [hdelC, hdecC]
    simp only [dVals_append]
    have hv1 : dVals ((agent, a) :: postC) = a :: dVals postC := rfl
    rw [hv1]
    refine Multiset.coe_eq_coe.mp ?_
    simp only [coeApp, coeCons, coeNil]
    rw [hm2]
    abel
  · intro b lb hlb
    have hlb2 : dLookup alloc2 b = some lb := hlb
    by_cases hae : b = agent
    · rw [hae, hlk2] at hlb2
      injection hlb2 with h6
      rw [← h6]
      simp
    · rw [hlk2ne b hae] at hlb2
      exact i9 b lb hlb2
  · intro b hb
    rcases hmem2 b hb with h5 | h5
    · rw [h5]
      exact i10 agent (i2 agent (dMem_of_lookup_some _ _ _ hga))
    · exact i11 b h5

theorem removeAgent_inv (T : Nat → Nat) (agents0 objs0 : List Nat) (pr0 : Dict Int)
    (ctx : Ctx) (agent : Nat) (ctx' : Ctx)
    (h : removeAgent ctx agent = .ok ctx')
    (hinv : Inv T agents0 objs0 pr0 ctx) :
    Inv T agents0 objs0 pr0 ctx' := by
  rw [removeAgent] at h
  cases hg : dGet ctx.curr_ends agent with
  | error e =>
    rw [hg] at h
    have h2 : (Except.error e : M Ctx) = .ok ctx' := h
    cases h2
  | ok a =>
    rw [hg, M_bind_ok] at h
    have hga : dLookup ctx.curr_ends agent = some a := (dGet_eq_ok _ _ _).mp hg
    cases hdc : dDel ctx.curr_ends agent with
    | error e =>
      rw [hdc] at h
      have h2 : (Except.error e : M Ctx) = .ok ctx' := h
      cases h2
    | ok ce2 =>
      rw [hdc, M_bind_ok] at h
      cases hdg : dDel ctx.graph agent with
      | error e =>
        rw [hdg] at h
        have h2 : (Except.error e : M Ctx) = .ok ctx' := h
        cases h2
      | ok g2 =>
        rw [hdg, M_bind_ok] at h
        cases hdp : dDel ctx.curr_prefs agent with
        | error e =>
          rw [hdp] at h
          have h2 : (Except.error e : M Ctx) = .ok ctx' := h
          cases h2
        | ok cp2 =>
          rw [hdp, M_bind_ok] at h
          have i6 : (dKeys ctx.alloc).Nodup := hinv.2.2.2.2.2.1
          cases hla : dLookup ctx.alloc agent with
          | some l =>
            rw [hla] at h
            have h2 : (Except.ok (scrubFromCurrPrefs
                { ctx with alloc := dSet ctx.alloc agent (l ++ [a]),
                           curr_ends := ce2, graph := g2, curr_prefs := cp2 } a) :
                M Ctx) = .ok ctx' := h
            injection h2 with h3
            rw [← h3]
            refine removeAgent_inv_core T agents0 objs0 pr0 ctx agent a ce2 _ g2 cp2
              hga hdc (dKeys_dSet_nodup _ _ _ i6) ?_ ?_ ?_ ?_ hinv
            · rw [dLookup_dSet_self, hla]
              rfl
            · intro b hb
              exact dLookup_dSet_ne ctx.alloc agent b (l ++ [a]) (fun hh => hb hh.symm)
            · obtain ⟨preA, postA, hdecA, hkpA, hsetA⟩ :=
                dSet_decomp ctx.alloc agent l (l ++ [a]) hla
              rw [hsetA, hdecA]
              simp only [dVals_append]
              have hv1 : dVals ((agent, l ++ [a]) :: postA) = (l ++ [a]) :: dVals postA := rfl
              have hv2 : dVals ((agent, l) :: postA) = l :: dVals postA := rfl
              rw [hv1, hv2]
              simp only [List.flatten_append, List.flatten_cons]
              simp only [coeApp, coeCons, coeNil]
              abel
            · intro b hb
              by_cases hae : b = agent
              · exact Or.inl hae
              · rw [dMem_dSet_ne ctx.alloc agent b (l ++ [a]) (fun hh => hae hh.symm)] at hb
                exact Or.inr hb
          | none =>
            rw [hla] at h
            have h2 : (Except.ok (scrubFromCurrPrefs
                { ctx with alloc := dSet ctx.alloc agent [a],
                           curr_ends := ce2, graph := g2, curr_prefs := cp2 } a) :
                M Ctx) = .ok ctx' := h
            injection h2 with h3
            rw [← h3]
            have hmemF : dMem ctx.alloc agent = false := dMem_of_lookup_none _ _ hla
            refine removeAgent_inv_core T agents0 objs0 pr0 ctx agent a ce2 _ g2 cp2
              hga hdc (dKeys_dSet_nodup _ _ _ i6) ?_ ?_ ?_ ?_ hinv
            · rw [dLookup_dSet_self, hla]
              rfl
            · intro b hb
              exact dLookup_dSet_ne ctx.alloc agent b [a] (fun hh => hb hh.symm)
            · rw [dSet_absent ctx.alloc agent [a] hmemF]
              simp only [dVals_append]
              have hv1 : dVals [(agent, [a])] = [[a]] := rfl
              rw [hv1]
              simp only [List.flatten_append, List.flatten_cons]
              have hv2 : ([[a]] : List (List Nat)).flatten = [a] ++ [] := rfl
              simp only [coeApp, coeCons, coeNil]
              abel
            · intro b hb
              by_cases hae : b = agent
              · exact Or.inl hae
              · rw [dMem_dSet_ne ctx.alloc agent b [a] (fun hh => hae hh.symm)] at hb
                exact Or.inr hb

theorem fields_of_bind_set {α : Type} (m : M α) (g : α → Ctx) (ctx' : Ctx)
    (h : (m >>= fun x => (Except.ok (g x) : M Ctx)) = .ok ctx') :
    ∃ x, m = .ok x ∧ ctx' = g x := by
  cases hm : m with
  | error e =>
    rw [hm] at h
    have h2 : (Except.error e : M Ctx) = .ok ctx' := h
    cases h2
  | ok x =>
    rw [hm, M_bind_ok] at h
    injection h with h2
    exact ⟨x, rfl, h2.symm⟩

theorem buildTtcGraph_inv (T : Nat → Nat) (agents0 objs0 : List Nat) (pr0 : Dict Int)
    (ctx ctx' : Ctx) (h : buildTtcGraph ctx = .ok ctx')
    (hinv : Inv T agents0 objs0 pr0 ctx) : Inv T agents0 objs0 pr0 ctx' := by
  have h2 : ((buildEdges ctx.curr_prefs
      (ctx.curr_ends.foldl (fun r ae => dSet r ae.2 ae.1) [])) >>=
      fun g => (Except.ok { ctx with graph := g } : M Ctx)) = .ok ctx' := h
  obtain ⟨g, _, hctx⟩ := fields_of_bind_set _ _ _ h2
  rw [hctx]
  exact Inv_congr hinv rfl rfl rfl rfl rfl

theorem collectUnsatisfied_inv (T : Nat → Nat) (agents0 objs0 : List Nat) (pr0 : Dict Int)
    (ctx ctx' : Ctx) (h : collectUnsatisfied ctx = .ok ctx')
    (hinv : Inv T agents0 objs0 pr0 ctx) : Inv T agents0 objs0 pr0 ctx' := by
  have h2 : ((collectUnsatGo ctx (dKeys ctx.curr_ends) []) >>=
      fun u => (Except.ok { ctx with unsat := u } : M Ctx)) = .ok ctx' := h
  obtain ⟨u, _, hctx⟩ := fields_of_bind_set _ _ _ h2
  rw [hctx]
  exact Inv_congr hinv rfl rfl rfl rfl rfl

theorem recordPersistences_inv (T : Nat → Nat) (agents0 objs0 : List Nat) (pr0 : Dict Int)
    (ctx : Ctx) (sel : Dict Nat) (ctx' : Ctx)
    (h : recordPersistences ctx sel = .ok ctx')
    (hinv : Inv T agents0 objs0 pr0 ctx) : Inv T agents0 objs0 pr0 ctx' := by
  have h2 : ((recPersistGo ctx sel (dKeys ctx.reachable_unsat) []) >>=
      fun pt => (Except.ok { ctx with persistence_test := pt } : M Ctx)) = .ok ctx' := h
  obtain ⟨pt, _, hctx⟩ := fields_of_bind_set _ _ _ h2
  rw [hctx]
  exact Inv_congr hinv rfl rfl rfl rfl rfl

theorem frOuter_inv (T : Nat → Nat) (agents0 objs0 : List Nat) (pr0 : Dict Int)
    (sel : Dict Nat) :
    ∀ (fuel : Nat) (ctx : Ctx) (verts : List Nat) (ctx' : Ctx),
    frOuter sel fuel ctx verts = .ok ctx' → Inv T agents0 objs0 pr0 ctx →
    Inv T agents0 objs0 pr0 ctx' := by
  intro fuel
  induction fuel with
  | zero => intro ctx verts ctx' h _; cases h
  | succ n ih =>
    intro ctx verts ctx' h hinv
    rw [frOuter.eq_def] at h
    cases verts with
    | nil =>
      have h2 : (Except.ok ctx : M Ctx) = .ok ctx' := h
      cases h2
      exact hinv
    | cons v vrest =>
      have hb : ((dGet sel v) >>= fun start =>
          (frInner sel ctx.unsat ctx.reachable_unsat (sel.length + 2) [v] start) >>=
          fun pc =>
          (frAssign ctx.unsat pc.1 pc.2 ctx.reachable_unsat vrest) >>= fun rv =>
          frOuter sel n { ctx with reachable_unsat := rv.1 } rv.2) = .ok ctx' := h
      cases hg : dGet sel v with
      | error e =>
        rw [hg] at hb
        have h2 : (Except.error e : M Ctx) = .ok ctx' := hb
        cases h2
      | ok start =>
        rw [hg, M_bind_ok] at hb
        cases hfi : frInner sel ctx.unsat ctx.reachable_unsat (sel.length + 2) [v] start with
        | error e =>
          rw [hfi] at hb
          have h2 : (Except.error e : M Ctx) = .ok ctx' := hb
          cases h2
        | ok pc =>
          rw [hfi, M_bind_ok] at hb
          cases hfa : frAssign ctx.unsat pc.1 pc.2 ctx.reachable_unsat vrest with
          | error e =>
            rw [hfa] at hb
            have h2 : (Except.error e : M Ctx) = .ok ctx' := hb
            cases h2
          | ok rv =>
            rw [hfa, M_bind_ok] at hb
            exact ih { ctx with reachable_unsat := rv.1 } rv.2 ctx' hb
              (Inv_congr hinv rfl rfl rfl rfl rfl)

theorem firstReachableUnsat_inv (T : Nat → Nat) (agents0 objs0 : List Nat) (pr0 : Dict Int)
    (sel : Dict Nat) (ctx ctx' : Ctx) (h : firstReachableUnsat sel ctx = .ok ctx')
    (hinv : Inv T agents0 objs0 pr0 ctx) : Inv T agents0 objs0 pr0 ctx' := by
  have h2 : frOuter sel (sel.length + 1) { ctx with reachable_unsat := [] }
      (dKeys sel) = .ok ctx' := h
  exact frOuter_inv T agents0 objs0 pr0 sel (sel.length + 1) _ (dKeys sel) ctx' h2
    (Inv_congr hinv rfl rfl rfl rfl rfl)

theorem removeSinkAgents_inv (T : Nat → Nat) (agents0 objs0 : List Nat) (pr0 : Dict Int) :
    ∀ (sink : List Nat) (ctx ctx' : Ctx),
    removeSinkAgents ctx sink = .ok ctx' → Inv T agents0 objs0 pr0 ctx →
    Inv T agents0 objs0 pr0 ctx' := by
  intro sink
  induction sink with
  | nil =>
    intro ctx ctx' h hinv
    have h2 : (Except.ok ctx : M Ctx) = .ok ctx' := h
    cases h2
    exact hinv
  | cons agent rest ih =>
    intro ctx ctx' h hinv
    rw [removeSinkAgents] at h
    cases hra : removeAgent ctx agent with
    | error e =>
      rw [hra] at h
      have h2 : (Except.error e : M Ctx) = .ok ctx' := h
      cases h2
    | ok ctx1 =>
      rw [hra, M_bind_ok] at h
      exact ih ctx1 ctx' h (removeAgent_inv T agents0 objs0 pr0 ctx agent ctx1 hra hinv)

theorem removeSinksGo_inv (T : Nat → Nat) (agents0 objs0 : List Nat) (pr0 : Dict Int) :
    ∀ (sinks : List (List Nat)) (ctx : Ctx) (found : Bool) (r : Bool × Ctx),
    removeSinksGo ctx sinks found = .ok r → Inv T agents0 objs0 pr0 ctx →
    Inv T agents0 objs0 pr0 r.2 := by
  intro sinks
  induction sinks with
  | nil =>
    intro ctx found r h hinv
    have h2 : (Except.ok (found, ctx) : M (Bool × Ctx)) = .ok r := h
    cases h2
    exact hinv
  | cons sink rest ih =>
    intro ctx found r h hinv
    rw [removeSinksGo] at h
    by_cases ht : isTerminal sink ctx.unsat = true
    · rw [if_pos ht] at h
      cases hrs : removeSinkAgents ctx sink with
      | error e =>
        rw [hrs] at h
        have h2 : (Except.error e : M (Bool × Ctx)) = .ok r := h
        cases h2
      | ok ctx1 =>
        rw [hrs, M_bind_ok] at h
        exact ih ctx1 true r h
          (removeSinkAgents_inv T agents0 objs0 pr0 sink ctx ctx1 hrs hinv)
    · rw [if_neg ht] at h
      exact ih ctx found r h hinv

theorem removeTerminalSinks_inv (T : Nat → Nat) (agents0 objs0 : List Nat) (pr0 : Dict Int)
    (ctx : Ctx) (r : Bool × Ctx) (h : removeTerminalSinks ctx = .ok r)
    (hinv : Inv T agents0 objs0 pr0 ctx) : Inv T agents0 objs0 pr0 r.2 := by
  have h2 : ((getSinks ctx.graph) >>= fun sinks =>
      removeSinksGo ctx sinks false) = .ok r := h
  cases hgs : getSinks ctx.graph with
  | error e =>
    rw [hgs] at h2
    have h3 : (Except.error e : M (Bool × Ctx)) = .ok r := h2
    cases h3
  | ok sinks =>
    rw [hgs, M_bind_ok] at h2
    exact removeSinksGo_inv T agents0 objs0 pr0 sinks ctx false r h2 hinv

theorem updateCtxAndBuildGraph_inv (T : Nat → Nat) (agents0 objs0 : List Nat)
    (pr0 : Dict Int) (ctx ctx' : Ctx) (h : updateCtxAndBuildGraph ctx = .ok ctx')
    (hinv : Inv T agents0 objs0 pr0 ctx) : Inv T agents0 objs0 pr0 ctx' := by
  have h2 : ((updateEnds ctx) >>= fun c1 =>
      (buildTtcGraph (getCurrPrefs c1)) >>= fun c2 =>
      collectUnsatisfied c2) = .ok ctx' := h
  cases hue : updateEnds ctx with
  | error e =>
    rw [hue] at h2
    have h3 : (Except.error e : M Ctx) = .ok ctx' := h2
    cases h3
  | ok c1 =>
    rw [hue, M_bind_ok] at h2
    obtain ⟨hi1, _⟩ := updateEnds_inv T agents0 objs0 pr0 ctx c1 hue hinv
    have hi1g : Inv T agents0 objs0 pr0 (getCurrPrefs c1) :=
      Inv_congr hi1 rfl rfl rfl rfl rfl
    cases hbg : buildTtcGraph (getCurrPrefs c1) with
    | error e =>
      rw [hbg] at h2
      have h3 : (Except.error e : M Ctx) = .ok ctx' := h2
      cases h3
    | ok c2 =>
      rw [hbg, M_bind_ok] at h2
      exact collectUnsatisfied_inv T agents0 objs0 pr0 c2 ctx' h2
        (buildTtcGraph_inv T agents0 objs0 pr0 (getCurrPrefs c1) c2 hbg hi1g)

theorem sinkLoop_inv (T : Nat → Nat) (agents0 objs0 : List Nat) (pr0 : Dict Int) :
    ∀ (fuel : Nat) (ctx ctx' : Ctx), sinkLoop fuel ctx = .ok ctx' →
    Inv T agents0 objs0 pr0 ctx → Inv T agents0 objs0 pr0 ctx' := by
  intro fuel
  induction fuel with
  | zero => intro ctx ctx' h _; cases h
  | succ n ih =>
    intro ctx ctx' h hinv
    rw [sinkLoop] at h
    cases hrts : removeTerminalSinks ctx with
    | error e =>
      rw [hrts] at h
      have h2 : (Except.error e : M Ctx) = .ok ctx' := h
      cases h2
    | ok r =>
      rw [hrts, M_bind_ok] at h
      have hir : Inv T agents0 objs0 pr0 r.2 :=
        removeTerminalSinks_inv T agents0 objs0 pr0 ctx r hrts hinv
      by_cases hr : r.1 = true
      · rw [if_pos hr] at h
        cases hub : updateCtxAndBuildGraph r.2 with
        | error e =>
          rw [hub] at h
          have h2 : (Except.error e : M Ctx) = .ok ctx' := h
          cases h2
        | ok c1 =>
          rw [hub, M_bind_ok] at h
          exact ih c1 ctx' h
            (updateCtxAndBuildGraph_inv T agents0 objs0 pr0 r.2 c1 hub hir)
      · rw [if_neg hr] at h
        have h2 : (Except.ok r.2 : M Ctx) = .ok ctx' := h
        cases h2
        exact hir

theorem iterativelyRemoveSinks_inv (T : Nat → Nat) (agents0 objs0 : List Nat)
    (pr0 : Dict Int) (ctx ctx' : Ctx) (h : iterativelyRemoveSinks ctx = .ok ctx')
    (hinv : Inv T agents0 objs0 pr0 ctx) : Inv T agents0 objs0 pr0 ctx' := by
  have h2 : ((updateCtxAndBuildGraph ctx) >>= fun c1 =>
      sinkLoop (totalObjects c1 + 1) c1) = .ok ctx' := h
  cases hub : updateCtxAndBuildGraph ctx with
  | error e =>
    rw [hub] at h2
    have h3 : (Except.error e : M Ctx) = .ok ctx' := h2
    cases h3
  | ok c1 =>
    rw [hub, M_bind_ok] at h2
    exact sinkLoop_inv T agents0 objs0 pr0 (totalObjects c1 + 1) c1 ctx' h2
      (updateCtxAndBuildGraph_inv T agents0 objs0 pr0 ctx c1 hub hinv)

/-! ## The selection graph built by `_subgraph` has duplicate-free keys -/

theorem persistenceSelect_keys_nodup (ctx : Ctx) :
    ∀ (l : List (Nat × PersistRec)) (sel : Dict Nat) (labeled : List Nat),
    (dKeys sel).Nodup → (dKeys (persistenceSelect ctx l sel labeled).1).Nodup := by
  intro l
  induction l with
  | nil => intro sel labeled h; exact h
  | cons vr rest ih =>
    intro sel labeled h
    obtain ⟨v, r⟩ := vr
    show (dKeys (match persistEval ctx r with
      | some t =>
        if pyTruthy t then persistenceSelect ctx rest (dSet sel v t) (sAdd labeled v)
        else persistenceSelect ctx rest sel labeled
      | none => persistenceSelect ctx rest sel labeled).1).Nodup
    cases hpe : persistEval ctx r with
    | some t =>
      show (dKeys (if pyTruthy t = true then
          persistenceSelect ctx rest (dSet sel v t) (sAdd labeled v)
        else persistenceSelect ctx rest sel labeled).1).Nodup
      by_cases hpt : pyTruthy t = true
      · rw [if_pos hpt]
        exact ih (dSet sel v t) (sAdd labeled v) (dKeys_dSet_nodup _ _ _ h)
      · rw [if_neg hpt]
        exact ih sel labeled h
    | none =>
      exact ih sel labeled h

theorem unsatSelect_keys_nodup (g : Dict (List Nat)) (prio : Nat → M Int) :
    ∀ (l : List Nat) (sel : Dict Nat) (labeled : List Nat) (r : Dict Nat × List Nat),
    unsatSelect g prio l sel labeled = .ok r → (dKeys sel).Nodup →
    (dKeys r.1).Nodup := by
  intro l
  induction l with
  | nil =>
    intro sel labeled r h hnd
    have h2 : (Except.ok (sel, labeled) : M (Dict Nat × List Nat)) = .ok r := h
    cases h2
    exact hnd
  | cons u rest ih =>
    intro sel labeled r h hnd
    rw [unsatSelect] at h
    cases hg : dGet g u with
    | error e =>
      rw [hg] at h
      have h2 : (Except.error e : M (Dict Nat × List Nat)) = .ok r := h
      cases h2
    | ok nbrs =>
      rw [hg, M_bind_ok] at h
      cases hm : pyMin prio nbrs with
      | error e =>
        rw [hm] at h
        have h2 : (Except.error e : M (Dict Nat × List Nat)) = .ok r := h
        cases h2
      | ok m =>
        rw [hm, M_bind_ok] at h
        exact ih (dSet sel u m) (sAdd labeled u) r h (dKeys_dSet_nodup _ _ _ hnd)

theorem satStep_sel_nodup (g rev : Dict (List Nat)) (prio : Nat → M Int)
    (sel : Dict Nat) (labeled : List Nat) (heap : HeapSet)
    (st : Nat × Nat × Dict Nat × List Nat × HeapSet)
    (h : satStep g rev prio sel labeled heap = .ok st)
    (hnd : (dKeys sel).Nodup) : (dKeys st.2.2.1).Nodup := by
  have h2 : ((collectAdjacentToLabeled heap rev prio labeled) >>= fun heap1 =>
      (heap1.pop) >>= fun vh =>
      (dGet g vh.1) >>= fun nbrs =>
      (pyMin prio (nbrs.filter (fun n => n ∈ labeled))) >>= fun m =>
      (Except.ok (vh.1, m, dSet sel vh.1 m, sAdd labeled vh.1, vh.2) :
        M (Nat × Nat × Dict Nat × List Nat × HeapSet))) = .ok st := h
  cases hc : collectAdjacentToLabeled heap rev prio labeled with
  | error e =>
    rw [hc] at h2
    have h3 : (Except.error e : M (Nat × Nat × Dict Nat × List Nat × HeapSet)) = .ok st := h2
    cases h3
  | ok heap1 =>
    rw [hc, M_bind_ok] at h2
    cases hp : heap1.pop with
    | error e =>
      rw [hp] at h2
      have h3 : (Except.error e : M (Nat × Nat × Dict Nat × List Nat × HeapSet)) = .ok st := h2
      cases h3
    | ok vh =>
      rw [hp, M_bind_ok] at h2
      cases hg : dGet g vh.1 with
      | error e =>
        rw [hg] at h2
        have h3 : (Except.error e : M (Nat × Nat × Dict Nat × List Nat × HeapSet)) = .ok st := h2
        cases h3
      | ok nbrs =>
        rw [hg, M_bind_ok] at h2
        cases hm : pyMin prio (nbrs.filter (fun n => n ∈ labeled)) with
        | error e =>
          rw [hm] at h2
          have h3 : (Except.error e : M (Nat × Nat × Dict Nat × List Nat × HeapSet)) = .ok st := h2
          cases h3
        | ok m =>
          rw [hm, M_bind_ok] at h2
          injection h2 with h3
          rw [← h3]
          exact dKeys_dSet_nodup _ _ _ hnd

theorem satSelectLoop_keys_nodup (g rev : Dict (List Nat)) (prio : Nat → M Int) :
    ∀ (fuel : Nat) (sel : Dict Nat) (labeled : List Nat) (heap : HeapSet)
    (unl : List Nat) (r : Dict Nat × List Nat),
    satSelectLoop g rev prio fuel sel labeled heap unl = .ok r →
    (dKeys sel).Nodup → (dKeys r.1).Nodup := by
  intro fuel
  induction fuel with
  | zero =>
    intro sel labeled heap unl r h hnd
    rw [satSelectLoop] at h
    by_cases hu : unl.isEmpty = true
    · rw [if_pos hu] at h
      cases h
      exact hnd
    · rw [if_neg hu] at h
      cases h
  | succ n ih =>
    intro sel labeled heap unl r h hnd
    rw [satSelectLoop] at h
    by_cases hu : unl.isEmpty = true
    · rw [if_pos hu] at h
      cases h
      exact hnd
    · rw [if_neg hu] at h
      cases hst : satStep g rev prio sel labeled heap with
      | error e =>
        rw [hst] at h
        have h2 : (Except.error e : M (Dict Nat × List Nat)) = .ok r := h
        cases h2
      | ok st =>
        rw [hst, M_bind_ok] at h
        cases hsr : setRemove unl st.1 with
        | error e =>
          rw [hsr] at h
          have h2 : (Except.error e : M (Dict Nat × List Nat)) = .ok r := h
          cases h2
        | ok unl2 =>
          rw [hsr, M_bind_ok] at h
          exact ih st.2.2.1 st.2.2.2.1 st.2.2.2.2 unl2 r h
            (satStep_sel_nodup g rev prio sel labeled heap st hst hnd)

theorem satSelect_keys_nodup (g : Dict (List Nat)) (prio : Nat → M Int)
    (sel : Dict Nat) (labeled : List Nat) (r : Dict Nat × List Nat)
    (h : satSelect g prio sel labeled = .ok r) (hnd : (dKeys sel).Nodup) :
    (dKeys r.1).Nodup := by
  have h2 : ((reverseGraph g) >>= fun rev =>
      satSelectLoop g rev prio ((dKeys g).filter (fun v => v ∉ labeled)).length
        sel labeled HeapSet.empty ((dKeys g).filter (fun v => v ∉ labeled))) = .ok r := h
  cases hrg : reverseGraph g with
  | error e =>
    rw [hrg] at h2
    have h3 : (Except.error e : M (Dict Nat × List Nat)) = .ok r := h2
    cases h3
  | ok rev =>
    rw [hrg, M_bind_ok] at h2
    exact satSelectLoop_keys_nodup g rev prio
      ((dKeys g).filter (fun v => v ∉ labeled)).length sel labeled HeapSet.empty
      ((dKeys g).filter (fun v => v ∉ labeled)) r h2 hnd

theorem subgraph_keys_nodup (ctx : Ctx) (sel : Dict Nat)
    (h : subgraph ctx = .ok sel) : (dKeys sel).Nodup := by
  have hnd0 : (dKeys (if ctx.persistence_test.isEmpty then
      (([] : Dict Nat), ([] : List Nat))
    else persistenceSelect ctx ctx.persistence_test [] []).1).Nodup := by
    by_cases hie : ctx.persistence_test.isEmpty = true
    · rw [if_pos hie]
      exact List.nodup_nil
    · rw [if_neg hie]
      exact persistenceSelect_keys_nodup ctx ctx.persistence_test [] [] List.nodup_nil
  have h2 : ((unsatSelect ctx.graph (agentPriority ctx) ctx.unsat
      (if ctx.persistence_test.isEmpty then (([] : Dict Nat), ([] : List Nat))
       else persistenceSelect ctx ctx.persistence_test [] []).1
      (if ctx.persistence_test.isEmpty then (([] : Dict Nat), ([] : List Nat))
       else persistenceSelect ctx ctx.persistence_test [] []).2) >>= fun sl1 =>
      (satSelect ctx.graph (agentPriority ctx) sl1.1 sl1.2) >>= fun sl2 =>
      (Except.ok sl2.1 : M (Dict Nat))) = .ok sel := h
  cases hu : unsatSelect ctx.graph (agentPriority ctx) ctx.unsat
      (if ctx.persistence_test.isEmpty then (([] : Dict Nat), ([] : List Nat))
       else persistenceSelect ctx ctx.persistence_test [] []).1
      (if ctx.persistence_test.isEmpty then (([] : Dict Nat), ([] : List Nat))
       else persistenceSelect ctx ctx.persistence_test [] []).2 with
  | error e =>
    rw [hu] at h2
    have h3 : (Except.error e : M (Dict Nat)) = .ok sel := h2
    cases h3
  | ok sl1 =>
    rw [hu, M_bind_ok] at h2
    cases hs : satSelect ctx.graph (agentPriority ctx) sl1.1 sl1.2 with
    | error e =>
      rw [hs] at h2
      have h3 : (Except.error e : M (Dict Nat)) = .ok sel := h2
      cases h3
    | ok sl2 =>
      rw [hs, M_bind_ok] at h2
      injection h2 with h3
      rw [← h3]
      exact satSelect_keys_nodup ctx.graph (agentPriority ctx) sl1.1 sl1.2 sl2 hs
        (unsatSelect_keys_nodup ctx.graph (agentPriority ctx) ctx.unsat _ _ sl1 hu hnd0)

theorem trade_inv (T : Nat → Nat) (agents0 objs0 : List Nat) (pr0 : Dict Int)
    (ctx : Ctx) (sel : Dict Nat) (ctx' : Ctx) (hsel : (dKeys sel).Nodup)
    (h : trade ctx sel = .ok ctx') (hinv : Inv T agents0 objs0 pr0 ctx) :
    Inv T agents0 objs0 pr0 ctx' := by
  obtain ⟨hk, hp, hpf, hen, hal, hpr⟩ := trade_conserve ctx sel ctx' hsel h
  obtain ⟨i1, i2, i3, i4, i5, i6, i7, i8, i9, i10, i11, i12⟩ := hinv
  refine ⟨?_, ?_, ?_, ?_, ?_, ?_, ?_, ?_, ?_, ?_, ?_, ?_⟩
  · intro a
    rw [hpf, hen]
    exact i1 a
  · intro a ha
    rw [hen]
    refine i2 a ?_
    rw [← dMem_eq_of_keys_eq ctx.curr_ends ctx'.curr_ends hk a]
    exact ha
  · rw [hpf]
    exact i3
  · rw [hen]
    exact i4
  · rw [hk]
    exact i5
  · rw [hal]
    exact i6
  · intro a
    show lenO (dLookup ctx'.alloc a) + lenO (dLookup ctx'.ends a) +
        (if dMem ctx'.curr_ends a then 1 else 0) = T a
    rw [hal, hen, dMem_eq_of_keys_eq ctx.curr_ends ctx'.curr_ends hk a]
    exact i7 a
  · show ((dVals ctx'.ends).flatten ++ dVals ctx'.curr_ends ++
        (dVals ctx'.alloc).flatten).Perm objs0
    refine List.Perm.trans ?_ i8
    rw [hen, hal]
    show ((dVals ctx.ends).flatten ++ dVals ctx'.curr_ends ++
        (dVals ctx.alloc).flatten).Perm
        ((dVals ctx.ends).flatten ++ dVals ctx.curr_ends ++ (dVals ctx.alloc).flatten)
    exact List.Perm.append (List.Perm.append (List.Perm.refl _) hp) (List.Perm.refl _)
  · intro a l hl
    rw [hal] at hl
    exact i9 a l hl
  · intro a ha
    rw [hen] at ha
    exact i10 a ha
  · intro a ha
    rw [hal] at ha
    exact i11 a ha
  · rw [hpr]
    exact i12

theorem roundBody_inv (T : Nat → Nat) (agents0 objs0 : List Nat) (pr0 : Dict Int)
    (ctx ctx' : Ctx) (h : roundBody ctx = .ok ctx')
    (hinv : Inv T agents0 objs0 pr0 ctx) : Inv T agents0 objs0 pr0 ctx' := by
  have h2 : ((updateEnds ctx) >>= fun c1 =>
      (buildTtcGraph (getCurrPrefs c1)) >>= fun c2 =>
      (iterativelyRemoveSinks c2) >>= fun c3 =>
      (subgraph c3) >>= fun sel =>
      (firstReachableUnsat sel c3) >>= fun c4 =>
      (recordPersistences c4 sel) >>= fun c5 =>
      trade c5 sel) = .ok ctx' := h
  cases hue : updateEnds ctx with
  | error e =>
    rw [hue] at h2
    have h3 : (Except.error e : M Ctx) = .ok ctx' := h2
    cases h3
  | ok c1 =>
    rw [hue, M_bind_ok] at h2
    obtain ⟨hi1, _⟩ := updateEnds_inv T agents0 objs0 pr0 ctx c1 hue hinv
    cases hbg : buildTtcGraph (getCurrPrefs c1) with
    | error e =>
      rw [hbg] at h2
      have h3 : (Except.error e : M Ctx) = .ok ctx' := h2
      cases h3
    | ok c2 =>
      rw [hbg, M_bind_ok] at h2
      have hi2 : Inv T agents0 objs0 pr0 c2 :=
        buildTtcGraph_inv T agents0 objs0 pr0 (getCurrPrefs c1) c2 hbg
          (Inv_congr hi1 rfl rfl rfl rfl rfl)
      cases hir : iterativelyRemoveSinks c2 with
      | error e =>
        rw [hir] at h2
        have h3 : (Except.error e : M Ctx) = .ok ctx' := h2
        cases h3
      | ok c3 =>
        rw [hir, M_bind_ok] at h2
        have hi3 : Inv T agents0 objs0 pr0 c3 :=
          iterativelyRemoveSinks_inv T agents0 objs0 pr0 c2 c3 hir hi2
        cases hsg : subgraph c3 with
        | error e =>
          rw [hsg] at h2
          have h3 : (Except.error e : M Ctx) = .ok ctx' := h2
          cases h3
        | ok sel =>
          rw [hsg, M_bind_ok] at h2
          have hselnd : (dKeys sel).Nodup := subgraph_keys_nodup c3 sel hsg
          cases hfr : firstReachableUnsat sel c3 with
          | error e =>
            rw [hfr] at h2
            have h3 : (Except.error e : M Ctx) = .ok ctx' := h2
            cases h3
          | ok c4 =>
            rw [hfr, M_bind_ok] at h2
            have hi4 : Inv T agents0 objs0 pr0 c4 :=
              firstReachableUnsat_inv T agents0 objs0 pr0 sel c3 c4 hfr hi3
            cases hrp : recordPersistences c4 sel with
            | error e =>
              rw [hrp] at h2
              have h3 : (Except.error e : M Ctx) = .ok ctx' := h2
              cases h3
            | ok c5 =>
              rw [hrp, M_bind_ok] at h2
              exact trade_inv T agents0 objs0 pr0 c5 sel ctx' hselnd h2
                (recordPersistences_inv T agents0 objs0 pr0 c4 sel c5 hrp hi4)

theorem ttcLoop_inv (T : Nat → Nat) (agents0 objs0 : List Nat) (pr0 : Dict Int) :
    ∀ (fuel : Nat) (ctx ctx' : Ctx), ttcLoop fuel ctx = .ok ctx' →
    Inv T agents0 objs0 pr0 ctx →
    Inv T agents0 objs0 pr0 ctx' ∧ ctx'.prefs = [] := by
  intro fuel
  induction fuel with
  | zero =>
    intro ctx ctx' h hinv
    rw [ttcLoop] at h
    by_cases he : ctx.prefs.isEmpty = true
    · rw [if_pos he] at h
      cases h
      exact ⟨hinv, List.isEmpty_iff.mp he⟩
    · rw [if_neg he] at h
      cases h
  | succ n ih =>
    intro ctx ctx' h hinv
    rw [ttcLoop] at h
    by_cases he : ctx.prefs.isEmpty = true
    · rw [if_pos he] at h
      cases h
      exact ⟨hinv, List.isEmpty_iff.mp he⟩
    · rw [if_neg he] at h
      cases hrb : roundBody ctx with
      | error e =>
        rw [hrb] at h
        have h2 : (Except.error e : M Ctx) = .ok ctx' := h
        cases h2
      | ok c1 =>
        rw [hrb, M_bind_ok] at h
        exact ih c1 ctx' h (roundBody_inv T agents0 objs0 pr0 ctx c1 hrb hinv)

/-! ## Final-state extraction and the conservation theorems -/

theorem dict_empty_of_all_not_mem {β : Type} (d : Dict β)
    (h : ∀ a, dMem d a = false) : d = [] := by
  cases d with
  | nil => rfl
  | cons e rest =>
    obtain ⟨k, v⟩ := e
    have h2 := h k
    rw [dMem, dLookup, if_pos rfl] at h2
    cases h2

theorem vals_disjoint_of_flatten_nodup (d : Dict (List Nat))
    (hf : ((dVals d).flatten).Nodup)
    (a b : Nat) (la lb : List Nat) (hab : a ≠ b)
    (hla : dLookup d a = some la) (hlb : dLookup d b = some lb) :
    ∀ x, x ∈ la → x ∉ lb := by
  obtain ⟨pre, post, hdec, hkpre, _⟩ := dSet_decomp d a la la hla
  have hlb2 : lb ∈ dVals pre ∨ lb ∈ dVals post := by
    rw [hdec, dLookup_append] at hlb
    cases hp : dLookup pre b with
    | some w =>
      rw [hp] at hlb
      have h3 : some w = some lb := hlb
      injection h3 with h4
      subst h4
      exact Or.inl (dLookup_mem_vals pre b w hp)
    | none =>
      rw [hp] at hlb
      have h3 : dLookup ((a, la) :: post) b = some lb := hlb
      rw [dLookup, if_neg hab] at h3
      exact Or.inr (dLookup_mem_vals post b lb h3)
  have hfl : ((dVals pre).flatten ++ (la ++ (dVals post).flatten)).Nodup := by
    rw [hdec, dVals_append] at hf
    have hv : dVals ((a, la) :: post) = la :: dVals post := rfl
    rw [hv, List.flatten_append] at hf
    have hv2 : (la :: dVals post).flatten = la ++ (dVals post).flatten := rfl
    rw [hv2] at hf
    exact hf
  intro x hx hxb
  rcases hlb2 with hmem | hmem
  · have hxpre : x ∈ (dVals pre).flatten := List.mem_flatten.mpr ⟨lb, hmem, hxb⟩
    exact (List.nodup_append.mp hfl).2.2 hxpre (List.mem_append.mpr (Or.inl hx))
  · have hxpost : x ∈ (dVals post).flatten := List.mem_flatten.mpr ⟨lb, hmem, hxb⟩
    exact (List.nodup_append.mp (List.nodup_append.mp hfl).2.1).2.2 hx hxpost

theorem initCtx_inv (prefs0 : Dict (List (List Nat))) (ends0 : Dict (List Nat))
    (pr0 : Dict Int)
    (hkeys : ∀ a, dMem prefs0 a = dMem ends0 a)
    (hp : (dKeys prefs0).Nodup) (he : (dKeys ends0).Nodup) :
    Inv (fun a => lenO (dLookup ends0 a)) (dKeys ends0) ((dVals ends0).flatten) pr0
      (initCtx prefs0 ends0 pr0) := by
  refine ⟨hkeys, ?_, hp, he, List.nodup_nil, List.nodup_nil, ?_, ?_, ?_, ?_, ?_, rfl⟩
  · intro a ha
    have ha2 : dMem ([] : Dict Nat) a = true := ha
    have h2 : dMem ([] : Dict Nat) a = false := rfl
    rw [h2] at ha2
    cases ha2
  · intro a
    show 0 + lenO (dLookup ends0 a) + 0 = lenO (dLookup ends0 a)
    omega
  · show ((dVals ends0).flatten ++ dVals ([] : Dict Nat) ++
        (dVals ([] : Dict (List Nat))).flatten).Perm ((dVals ends0).flatten)
    have h2 : (dVals ends0).flatten ++ dVals ([] : Dict Nat) ++
        (dVals ([] : Dict (List Nat))).flatten = (dVals ends0).flatten := by
      simp [dVals]
    rw [h2]
  · intro a l hl
    cases hl
  · intro a ha
    exact (dMem_true_iff ends0 a).mp ha
  · intro a ha
    have ha2 : dMem ([] : Dict (List Nat)) a = true := ha
    have h2 : dMem ([] : Dict (List Nat)) a = false := rfl
    rw [h2] at ha2
    cases ha2

theorem ttcRun_final (fuel : Nat) (prefs0 : Dict (List (List Nat)))
    (ends0 : Dict (List Nat)) (pr0 : Dict Int) (ctxf : Ctx)
    (hkeys : ∀ a, dMem prefs0 a = dMem ends0 a)
    (hp : (dKeys prefs0).Nodup) (he : (dKeys ends0).Nodup)
    (h : ttcRun fuel prefs0 ends0 pr0 = .ok ctxf) :
    ctxf.prefs = [] ∧ ctxf.ends = [] ∧ ctxf.curr_ends = [] ∧ ctxf.priority = pr0 ∧
    (dKeys ctxf.alloc).Nodup ∧
    (∀ a, dMem ctxf.alloc a = true → a ∈ dKeys ends0) ∧
    (∀ a, lenO (dLookup ctxf.alloc a) = lenO (dLookup ends0 a)) ∧
    ((dVals ctxf.alloc).flatten).Perm ((dVals ends0).flatten) ∧
    (∀ a l, dLookup ctxf.alloc a = some l → l ≠ []) := by
  obtain ⟨hi, hpe⟩ := ttcLoop_inv (fun a => lenO (dLookup ends0 a)) (dKeys ends0)
    ((dVals ends0).flatten) pr0 fuel (initCtx prefs0 ends0 pr0) ctxf h
    (initCtx_inv prefs0 ends0 pr0 hkeys hp he)
  obtain ⟨i1, i2, i3, i4, i5, i6, i7, i8, i9, i10, i11, i12⟩ := hi
  have hends : ctxf.ends = [] := by
    refine dict_empty_of_all_not_mem _ ?_
    intro a
    rw [← i1 a, hpe]
    rfl
  have hce : ctxf.curr_ends = [] := by
    refine dict_empty_of_all_not_mem _ ?_
    intro a
    cases hm : dMem ctxf.curr_ends a with
    | false => rfl
    | true =>
      have h3 := i2 a hm
      rw [hends] at h3
      cases h3
  have hlen : ∀ a, lenO (dLookup ctxf.alloc a) = lenO (dLookup ends0 a) := by
    intro a
    have hc : lenO (dLookup ctxf.alloc a) + lenO (dLookup ctxf.ends a) +
        (if dMem ctxf.curr_ends a then 1 else 0) = lenO (dLookup ends0 a) := i7 a
    rw [hends, hce] at hc
    have hc2 : lenO (dLookup ctxf.alloc a) + 0 + 0 = lenO (dLookup ends0 a) := hc
    omega
  have hperm : ((dVals ctxf.alloc).flatten).Perm ((dVals ends0).flatten) := by
    have h8 : ((dVals ctxf.ends).flatten ++ dVals ctxf.curr_ends ++
        (dVals ctxf.alloc).flatten).Perm ((dVals ends0).flatten) := i8
    rw [hends, hce] at h8
    exact h8
  exact ⟨hpe, hends, hce, i12, i6, i11, hlen, hperm, i9⟩

/-- Claim C1: for a well-formed input with equal preference and endowment
key sets, a successful run of `ttc` returns an allocation with
duplicate-free keys drawn from the endowment agents, in which each agent
receives exactly as many objects as his endowment sequence held, the
allocated objects are a permutation (as a multiset) of the endowed ones,
no two distinct agents share an object (given duplicate-free endowed
objects), and an agent appears in the allocation exactly when his
endowment sequence was non-empty.  The claim's stronger statement that the
key set equals the full agent set of the endowments argument is refuted by
`ttc_completeness_counterexample`. -/
theorem ttc_conservation (fuel : Nat) (prefs0 : Dict (List (List Nat)))
    (ends0 : Dict (List Nat)) (pr0 : Dict Int) (alloc : Dict (List Nat))
    (hkeys : ∀ a, dMem prefs0 a = dMem ends0 a)
    (hp : (dKeys prefs0).Nodup) (he : (dKeys ends0).Nodup)
    (hobj : ((dVals ends0).flatten).Nodup)
    (h : ttc fuel prefs0 ends0 pr0 = .ok alloc) :
    (dKeys alloc).Nodup ∧
    (∀ a, dMem alloc a = true → a ∈ dKeys ends0) ∧
    (∀ a, lenO (dLookup alloc a) = lenO (dLookup ends0 a)) ∧
    ((dVals alloc).flatten).Perm ((dVals ends0).flatten) ∧
    (∀ a b la lb, a ≠ b → dLookup alloc a = some la → dLookup alloc b = some lb →
      ∀ x, x ∈ la → x ∉ lb) ∧
    (∀ a, dMem alloc a = true ↔ 0 < lenO (dLookup ends0 a)) := by
  have h2 : ((ttcRun fuel prefs0 ends0 pr0).map Ctx.alloc) = .ok alloc := h
  cases hr : ttcRun fuel prefs0 ends0 pr0 with
  | error e =>
    rw [hr] at h2
    have h3 : (Except.error e : M (Dict (List Nat))) = .ok alloc := h2
    cases h3
  | ok ctxf =>
    rw [hr] at h2
    have h3 : (Except.ok ctxf.alloc : M (Dict (List Nat))) = .ok alloc := h2
    injection h3 with h4
    subst h4
    obtain ⟨hpe, hends, hce, hpr, hnd, hsub, hlen, hperm, hne⟩ :=
      ttcRun_final fuel prefs0 ends0 pr0 ctxf hkeys hp he hr
    refine ⟨hnd, hsub, hlen, hperm, ?_, ?_⟩
    · have hfn : ((dVals ctxf.alloc).flatten).Nodup := (hperm.nodup_iff).mpr hobj
      intro a b la lb hab hla hlb
      exact vals_disjoint_of_flatten_nodup ctxf.alloc hfn a b la lb hab hla hlb
    · intro a
      constructor
      · intro ha
        obtain ⟨la, hla⟩ := dLookup_some_of_mem_keys ctxf.alloc a
          ((dMem_true_iff _ _).mp ha)
        have hlen2 := hlen a
        rw [hla] at hlen2
        rw [← hlen2]
        have h5 : 0 < la.length := List.length_pos.mpr (hne a la hla)
        simpa [lenO] using h5
      · intro hl
        cases hm : dMem ctxf.alloc a with
        | true => rfl
        | false =>
          have hnone : dLookup ctxf.alloc a = none := by
            cases hx : dLookup ctxf.alloc a with
            | none => rfl
            | some w =>
              rw [dMem, hx] at hm
              cases hm
          have hlen2 := hlen a
          rw [hnone] at hlen2
          rw [← hlen2] at hl
          have h5 : (0 : Nat) < 0 := hl
          omega

/-- Claim C1 counterexample: on the well-formed input with no preferences
and one agent endowed with one object, `ttc` returns the empty allocation,
so the result's key set is not the agent set of the endowments argument
and the endowed agent does not appear with his endowment-sequence
length. -/
theorem ttc_completeness_counterexample :
    ttc 10 [] [(0, [10])] [(10, 0)] = .ok [] ∧
    dMem ([(0, [10])] : Dict (List Nat)) 0 = true ∧
    dMem ([] : Dict (List Nat)) 0 = false :=
  ⟨rfl, rfl, rfl⟩

/-- Claim C1 witness: the conservation theorem applied to a concrete
one-agent run. -/
theorem ttc_conservation_witness :
    (∀ a, lenO (dLookup ([(1, [10])] : Dict (List Nat)) a) =
      lenO (dLookup ([(1, [10])] : Dict (List Nat)) a)) ∧
    ((dVals ([(1, [10])] : Dict (List Nat))).flatten).Perm
      ((dVals ([(1, [10])] : Dict (List Nat))).flatten) := by
  have hkeys : ∀ a, dMem ([(1, [[10]])] : Dict (List (List Nat))) a =
      dMem ([(1, [10])] : Dict (List Nat)) a := by
    intro a
    show (dLookup ([(1, [[10]])] : Dict (List (List Nat))) a).isSome =
        (dLookup ([(1, [10])] : Dict (List Nat)) a).isSome
    simp only [dLookup]
    by_cases h1 : 1 = a
    · rw [if_pos h1, if_pos h1]
      rfl
    · rw [if_neg h1, if_neg h1]
      rfl
  have h := ttc_conservation 10 [(1, [[10]])] [(1, [10])] [(10, 0)] [(1, [10])]
    hkeys (by decide) (by decide) (by decide) rfl
  exact ⟨h.2.2.1, h.2.2.2.1⟩

/-- Claim C10: on success `ttc` has consumed its inputs: when the
preference and endowment arguments have the same duplicate-free agent key
set, the final state's Preferences, PendingEndowments and
CurrentEndowment are all empty — every agent key was deleted and every
pending list drained — while the priority mapping is returned exactly as
given.  The claim's unconditional form is refuted by
`ttc_consumes_inputs_counterexample`: an endowment-only agent survives in
PendingEndowments because the loop never runs. -/
theorem ttc_frame_effects (fuel : Nat) (prefs0 : Dict (List (List Nat)))
    (ends0 : Dict (List Nat)) (pr0 : Dict Int) (ctxf : Ctx)
    (hkeys : ∀ a, dMem prefs0 a = dMem ends0 a)
    (hp : (dKeys prefs0).Nodup) (he : (dKeys ends0).Nodup)
    (h : ttcRun fuel prefs0 ends0 pr0 = .ok ctxf) :
    ctxf.prefs = [] ∧ ctxf.ends = [] ∧ ctxf.curr_ends = [] ∧ ctxf.priority = pr0 := by
  obtain ⟨h1, h2, h3, h4, _⟩ := ttcRun_final fuel prefs0 ends0 pr0 ctxf hkeys hp he h
  exact ⟨h1, h2, h3, h4⟩

/-- Claim C10 counterexample: with empty preferences and a non-empty
endowment dict the run succeeds immediately and the endowments survive
untouched in the final state, contradicting the claim that the endowment
dictionary is empty upon every successful return. -/
theorem ttc_consumes_inputs_counterexample :
    (ttcRun 10 [] [(0, [10])] [(10, 0)]).map Ctx.ends = .ok [(0, [10])] := rfl

/-- Claim C10 witness: the frame theorem applied to a concrete one-agent
run. -/
theorem ttc_frame_effects_witness :
    ∃ c, ttcRun 10 [(1, [[10]])] [(1, [10])] [(10, 0)] = .ok c ∧
      c.prefs = [] ∧ c.ends = [] ∧ c.curr_ends = [] ∧ c.priority = [(10, 0)] := by
  have hkeys : ∀ a, dMem ([(1, [[10]])] : Dict (List (List Nat))) a =
      dMem ([(1, [10])] : Dict (List Nat)) a := by
    intro a
    show (dLookup ([(1, [[10]])] : Dict (List (List Nat))) a).isSome =
        (dLookup ([(1, [10])] : Dict (List Nat)) a).isSome
    simp only [dLookup]
    by_cases h1 : 1 = a
    · rw [if_pos h1, if_pos h1]
      rfl
    · rw [if_neg h1, if_neg h1]
      rfl
  cases hr : ttcRun 10 [(1, [[10]])] [(1, [10])] [(10, 0)] with
  | error e =>
    have h1 : (ttcRun 10 [(1, [[10]])] [(1, [10])] [(10, 0)]).map Ctx.prefs =
        .ok [] := rfl
    rw [hr] at h1
    cases h1
  | ok c =>
    exact ⟨c, rfl, ttc_frame_effects 10 [(1, [[10]])] [(1, [10])] [(10, 0)] c
      hkeys (by decide) (by decide) hr⟩

end TTCModel
